import Mathlib

/-!
Shallow embedding of the metadata-resolution core of the
source-deploy-retrieve repository:

* `src/src/collections/componentSet.ts` — `ComponentSet` (two-level map,
  `add`/`has`/`size`/iteration, manifest `getObject`, filtered
  `resolveSourceComponents`),
* `src/unnamed/part_000` — `RegistryAccess` (`determineTypeId`,
  `fetchComponent`, `getComponentsFromPath`,
  `getComponentsFromPathRecursive`),
* `src/src/metadata-registry/fileContainers.ts` — `BaseFileContainer`
  (`find`, `findMetadataXml`, `findXmlFromContentPath`), the local and
  the GitHub tree container.

JS `Map`s are modelled as insertion-ordered association lists (`set` on an
existing key keeps its position and replaces the value, a new key is
appended), JS exceptions as the `Except Err` monad, and path strings keep
the repository's string representation with `/` as separator.
-/

namespace SDR

/-- Errors raised by the embedded code.  `typeError` stands for a plain
JavaScript `TypeError` (a crash that is not one of the repository's own
error classes). -/
inductive Err where
  | pathNotFound (p : String)
  | couldNotInferType (p : String)
  | missingTypeDefinition (n : String)
  | typeError (msg : String)
deriving Repr, DecidableEq

/-- Decidable equality for `Except` values, used to evaluate the
embedded fallible functions on concrete inputs. -/
instance exceptDecEq {ε α : Type} [DecidableEq ε] [DecidableEq α] :
    DecidableEq (Except ε α) := fun a b =>
  match a, b with
  | Except.ok x, Except.ok y =>
      if h : x = y then isTrue (by rw [h]) else isFalse (by simp [h])
  | Except.error x, Except.error y =>
      if h : x = y then isTrue (by rw [h]) else isFalse (by simp [h])
  | Except.ok _, Except.error _ => isFalse (by simp)
  | Except.error _, Except.ok _ => isFalse (by simp)

/-! ## Association-list model of JS `Map` / plain-object lookup -/

/-- First value stored under key `k` (JS `map.get(k)` / `obj[k]`). -/
def alistGet {α : Type} (l : List (String × α)) (k : String) : Option α :=
  match l with
  | [] => none
  | (k', v) :: rest => if k' == k then some v else alistGet rest k

/-- JS `map.has(k)`. -/
def alistHas {α : Type} (l : List (String × α)) (k : String) : Bool :=
  match l with
  | [] => false
  | (k', _) :: rest => k' == k || alistHas rest k

/-- JS `map.set(k, v)`: replace in place if the key exists, else append. -/
def alistSet {α : Type} (l : List (String × α)) (k : String) (v : α) :
    List (String × α) :=
  match l with
  | [] => [(k, v)]
  | (k', v') :: rest =>
      if k' == k then (k, v) :: rest else (k', v') :: alistSet rest k v

/-! ## String helpers

Kernel-reducible reimplementations of the string primitives the embedded
code uses (`String.splitOn` and friends do not reduce inside `decide`).
Their behavior on our inputs matches the JS string methods they stand
for. -/

/-- Split a character list at every occurrence of `sep` (JS
`s.split(sep)` semantics: always at least one piece, empty pieces
kept). -/
def splitCharsAux (sep : Char) : List Char → List Char → List (List Char)
  | [], acc => [acc.reverse]
  | c :: rest, acc =>
      if c == sep then acc.reverse :: splitCharsAux sep rest []
      else splitCharsAux sep rest (c :: acc)

/-- JS `s.split(sep)` for a one-character separator. -/
def splitC (sep : Char) (s : String) : List String :=
  (splitCharsAux sep s.data []).map (fun l => ⟨l⟩)

/-- Join strings with a one-character separator (inverse of `splitC`). -/
def joinC (sep : Char) : List String → String
  | [] => ""
  | [x] => x
  | x :: rest => x ++ sep.toString ++ joinC sep rest

/-- JS `a.startsWith(b)`. -/
def strStartsWith (a b : String) : Bool := b.data.isPrefixOf a.data

/-- JS `a.endsWith(b)`. -/
def strEndsWith (a b : String) : Bool := b.data.isSuffixOf a.data

/-- JS `s.includes(c)` for a single character. -/
def strHasChar (s : String) (c : Char) : Bool := s.data.contains c

/-- Drop the last `n` characters (JS `s.slice(0, -n)`). -/
def strDropRight (s : String) (n : Nat) : String :=
  ⟨s.data.take (s.data.length - n)⟩

/-- ASCII lowercase for one character. -/
def lowerChar (c : Char) : Char :=
  if 'A' ≤ c ∧ c ≤ 'Z' then Char.ofNat (c.toNat + 32) else c

/-- JS `s.toLowerCase()` (ASCII range, which covers the registry
names). -/
def strToLower (s : String) : String := ⟨s.data.map lowerChar⟩

/-! ## Path helpers (`path.sep`, `join`, `basename`, `dirname`, and the
repository's `utils/path` helpers, which are not under `src/`). -/

/-- Path segments (`fsPath.split(sep)` with `/` as separator). -/
def splitPath (p : String) : List String := splitC '/' p

/-- Join segments back into a path. -/
def joinSegs (l : List String) : String := joinC '/' l

/-- Node's `join(directory, file)` for our already-normalized paths. -/
def joinP (d f : String) : String := d ++ "/" ++ f

/-- Node's `basename`. -/
def basenameP (p : String) : String := (splitPath p).getLastD ""

/-- Node's `dirname` (single-segment paths have dirname `.`). -/
def dirnameP (p : String) : String :=
  let parts := splitPath p
  if parts.length ≤ 1 then "." else joinSegs parts.dropLast

/-- Modelled from the spec: `parentName` from the repository's
`utils/path` (not under `src/`) — name of the path's immediate parent
directory, i.e. `basename(dirname(path))`. -/
def parentName (p : String) : String := basenameP (dirnameP p)

/-- Modelled from the spec: `extName` from `utils/path` (not under
`src/`) — the path's raw file extension, `none` when the file name has no
dot. -/
def extName (p : String) : Option String :=
  let parts := splitC '.' (basenameP p)
  if parts.length ≤ 1 then none else some (parts.getLastD "")

/-- Modelled from the spec: `baseName` from `utils` (not under `src/`) —
the file name of a path up to its first dot ("the root path's base
name"). -/
def baseName (p : String) : String := (splitC '.' (basenameP p)).headD ""

/-- Result of parsing a metadata descriptor file name. -/
structure MetadataXml where
  fullName : String
  suffix : String
deriving Repr, DecidableEq

/-- Modelled from the spec: `parseMetadataXml` from `utils/registry` (not
under `src/`) — a descriptor is conventionally named
`<base>.<suffix>-meta.xml`; yields the base name and the embedded suffix,
both nonempty, the suffix dot-free. -/
def parseMetadataXml (p : String) : Option MetadataXml :=
  let b := basenameP p
  if strEndsWith b "-meta.xml" then
    let stem := strDropRight b 9
    let parts := splitC '.' stem
    if parts.length ≥ 2 then
      let sfx := parts.getLastD ""
      let fn := joinC '.' parts.dropLast
      if fn.data.isEmpty || sfx.data.isEmpty then none
      else some ⟨fn, sfx⟩
    else none
  else none

/-! ## Registry data model -/

/-- Registry entry for one metadata type (`MetadataType` in `types.ts`).
Only the fields the embedded code reads are kept. -/
structure MetadataType where
  id : String
  name : String
  directoryName : String
  inFolder : Bool
  folderType : Option String := none
  folderContentType : Option String := none
deriving Repr, DecidableEq

/-- The registry blob (`MetadataRegistry`): type table keyed by lowercase
id, suffix table, mixed-content directory table (iteration order of the
association lists models JS object key order), and the API version. -/
structure Registry where
  types : List (String × MetadataType)
  suffixes : List (String × String)
  mixedContent : List (String × String)
  apiVersion : String
deriving Repr, DecidableEq

/-- Name normalization used by the registry lookups:
`name.toLowerCase().replace(/ /g, '')`. -/
def normalizeTypeName (n : String) : String :=
  ⟨((strToLower n).data.filter (fun c => !(c == ' ')))⟩

/-- `RegistryAccess.getTypeFromName` (also `getTypeByName` used by
`ComponentSet`): lowercase, strip spaces, look up, throw
`error_missing_type_definition` when absent. -/
def getTypeFromName (reg : Registry) (n : String) : Except Err MetadataType :=
  let lower := normalizeTypeName n
  match alistGet reg.types lower with
  | some t => Except.ok t
  | none => Except.error (Err.missingTypeDefinition lower)

/-! ## ComponentSet (`src/src/collections/componentSet.ts`) -/

/-- A concrete, source-backed component: the identity fields
`ComponentSet` reads from a `SourceComponent` (type, full name, xml
descriptor path, content path). -/
structure SourceComponent where
  fullName : String
  type : MetadataType
  xml : Option String := none
  content : Option String := none
deriving Repr, DecidableEq

/-- `ComponentLike`: either an abstract `MetadataComponent`
(`fullName` + `type`) or a source-backed component. -/
inductive ComponentLike where
  | meta (fullName : String) (type : MetadataType)
  | source (c : SourceComponent)
deriving Repr, DecidableEq

/-- Full name of a component-like value. -/
def ComponentLike.fullName : ComponentLike → String
  | .meta fn _ => fn
  | .source c => c.fullName

/-- Type of a component-like value. -/
def ComponentLike.typeOf : ComponentLike → MetadataType
  | .meta _ t => t
  | .source c => c.type

/-- `ComponentSet.simpleKey`: `type.id + '#' + fullName` (the
string-typed branch of the TS union is not needed by any claim). -/
def simpleKey (c : ComponentLike) : String :=
  c.typeOf.id ++ "#" ++ c.fullName

/-- `ComponentSet.sourceKey`: undelimited concatenation
`type.name + fullName + (xml ?? '') + (content ?? '')`. -/
def sourceKey (sc : SourceComponent) : String :=
  sc.type.name ++ sc.fullName ++ sc.xml.getD "" ++ sc.content.getD ""

/-- The two-level mapping of `ComponentSet`: outer key `simpleKey`,
inner map keyed by `sourceKey`. -/
structure ComponentSet where
  components : List (String × List (String × SourceComponent))
  apiVersion : String
deriving Repr, DecidableEq

/-- `ComponentSet.add`: ensure the outer key exists; when the component
is source-backed also upsert it into the inner map under its source
key. -/
def ComponentSet.add (s : ComponentSet) (c : ComponentLike) : ComponentSet :=
  let key := simpleKey c
  let comps :=
    if alistHas s.components key then s.components
    else s.components ++ [(key, [])]
  let comps :=
    match c with
    | .source sc =>
        let inner := (alistGet comps key).getD []
        alistSet comps key (alistSet inner (sourceKey sc) sc)
    | .meta _ _ => comps
  { s with components := comps }

/-- `ComponentSet.has`: outer-key membership only. -/
def ComponentSet.has (s : ComponentSet) (c : ComponentLike) : Bool :=
  alistHas s.components (simpleKey c)

/-- `ComponentSet.size`: an entry whose inner collection is empty counts
as 1, otherwise it counts one per inner entry. -/
def ComponentSet.size (s : ComponentSet) : Nat :=
  (s.components.map (fun e => if e.2.isEmpty then 1 else e.2.length)).sum

/-- Type-id part of an outer key (`key.split('#')[0]`). -/
def keyTypeName (k : String) : String := (splitC '#' k).headD ""

/-- Full-name part of an outer key (`key.split('#')[1]`; JS
destructuring drops any further `#`-separated parts). -/
def keyFullName (k : String) : String := ((splitC '#' k).drop 1).headD ""

/-- Body of `ComponentSet.[Symbol.iterator]` over the outer entries. -/
def iterItemsGo (reg : Registry) :
    List (String × List (String × SourceComponent)) →
    Except Err (List ComponentLike)
  | [] => Except.ok []
  | (k, inner) :: rest => do
      let here ←
        if inner.isEmpty then do
          let t ← getTypeFromName reg (keyTypeName k)
          pure [ComponentLike.meta (keyFullName k) t]
        else
          pure (inner.map (fun v => ComponentLike.source v.2))
      let more ← iterItemsGo reg rest
      pure (here ++ more)

/-- `ComponentSet.[Symbol.iterator]` as a list: per outer key, every
inner source component if any exist, else one abstract component rebuilt
from the key through the registry. -/
def ComponentSet.iterItems (reg : Registry) (s : ComponentSet) :
    Except Err (List ComponentLike) :=
  iterItemsGo reg s.components

/-- The empty set produced by `new ComponentSet()` bound to `reg`. -/
def ComponentSet.empty (reg : Registry) : ComponentSet :=
  { components := [], apiVersion := reg.apiVersion }

/-- `new ComponentSet(components, registry)`: start empty and `add` each
element in order. -/
def buildSet (reg : Registry) (cs : List ComponentLike) : ComponentSet :=
  cs.foldl ComponentSet.add (ComponentSet.empty reg)

/-! ## Manifest object (`PackageManifestObject`) and its round trip.
The XML string layer (`fast-xml-parser`) is outside `src/`; per the
spec it faithfully round-trips the object shape, so serialization and
parsing are modelled at the manifest-object level. -/

/-- One `<types>` block: a type name and its member full names. -/
structure PackageTypeMembers where
  name : String
  members : List String
deriving Repr, DecidableEq

/-- The manifest object: type blocks plus the API version. -/
structure PackageManifestObject where
  types : List PackageTypeMembers
  version : String
deriving Repr, DecidableEq

/-- Loop of `ComponentSet.getObject` over the outer keys, accumulating
the `typeMap` (type name → member list). -/
def getObjectGo (reg : Registry) :
    List (String × List (String × SourceComponent)) →
    List (String × List String) →
    Except Err (List (String × List String))
  | [], tm => Except.ok tm
  | (k, _) :: rest, tm => do
      let t ← getTypeFromName reg (keyTypeName k)
      let t1 ←
        (if t.folderContentType.isSome then
          getTypeFromName reg (t.folderContentType.getD "")
        else Except.ok t)
      let cur := (alistGet tm t1.name).getD []
      getObjectGo reg rest (alistSet tm t1.name (cur ++ [keyFullName k]))

/-- `ComponentSet.getObject`: group the outer keys by resolved type name
(substituting a folder-container's content type), keeping key order. -/
def ComponentSet.getObject (reg : Registry) (s : ComponentSet) :
    Except Err PackageManifestObject := do
  let tm ← getObjectGo reg s.components []
  Except.ok
    { types := tm.map (fun e => { name := e.1, members := e.2 }),
      version := s.apiVersion }

/-- Member loop of `ComponentSet.getComponentsFromManifestObject`: each
member of a type block becomes an abstract component; a member of a
folder-contained type without a `/` in its full name is re-typed as the
folder type. -/
def parseMembersGo (reg : Registry) (typeName : String) :
    List String → Except Err (List ComponentLike)
  | [] => Except.ok []
  | fullName :: rest => do
      let t ← getTypeFromName reg typeName
      let t1 ←
        (if t.folderType.isSome && !strHasChar fullName '/' then
          getTypeFromName reg (t.folderType.getD "")
        else Except.ok t)
      let more ← parseMembersGo reg typeName rest
      Except.ok (ComponentLike.meta fullName t1 :: more)

/-- Block loop of `ComponentSet.getComponentsFromManifestObject`. -/
def parseBlocksGo (reg : Registry) :
    List PackageTypeMembers → Except Err (List ComponentLike)
  | [] => Except.ok []
  | tb :: rest => do
      let here ← parseMembersGo reg tb.name tb.members
      let more ← parseBlocksGo reg rest
      Except.ok (here ++ more)

/-- `ComponentSet.getComponentsFromManifestObject` as a list of abstract
components in document order. -/
def getComponentsFromManifestObject (reg : Registry)
    (m : PackageManifestObject) : Except Err (List ComponentLike) :=
  parseBlocksGo reg m.types

/-- Round trip at the manifest level: serialize a set to its manifest
object, parse the manifest back into abstract components (as
`fromManifestFile` does), rebuild a set carrying the manifest's version,
and serialize again. -/
def manifestRoundTrip (reg : Registry) (s : ComponentSet) :
    Except Err PackageManifestObject := do
  let m ← s.getObject reg
  let comps ← getComponentsFromManifestObject reg m
  let s' := { buildSet reg comps with apiVersion := m.version }
  s'.getObject reg

/-! ## Filtered `resolveSourceComponents`
(`src/src/collections/componentSet.ts`, lines 215-260).  The resolver
output is the `resolved` list; each element carries the relationship data
the filter logic reads: the component itself, its optional parent, and
its `getChildren()` list. -/

/-- One resolver result as consumed by the filter logic of
`resolveSourceComponents`. -/
structure ResolvedComponent where
  comp : SourceComponent
  parent : Option SourceComponent := none
  children : List SourceComponent := []
deriving Repr, DecidableEq

/-- The wildcard member (`*`) for a type. -/
def wildcardOf (t : MetadataType) : ComponentLike :=
  ComponentLike.meta "*" t

/-- The three admission conditions of filtered `resolveSourceComponents`:
exact membership, wildcard for the component's type, or parent present
(exactly or via wildcard for the parent's type). -/
def passesFilter (filterSet : ComponentSet) (rc : ResolvedComponent) : Bool :=
  filterSet.has (ComponentLike.source rc.comp) ||
  filterSet.has (wildcardOf rc.comp.type) ||
  (match rc.parent with
   | some par =>
       filterSet.has (ComponentLike.source par) ||
       filterSet.has (wildcardOf par.type)
   | none => false)

/-- Add a list of source components to a set in order. -/
def addAllSources (s : ComponentSet) (cs : List SourceComponent) :
    ComponentSet :=
  cs.foldl (fun st c => st.add (ComponentLike.source c)) s

/-- The filtered loop of `resolveSourceComponents`: for each resolved
component, if it passes the filter add it to both the set (`s`) and the
returned `sourceComponents` accumulator (`acc`); otherwise add exactly
those of its children that the filter contains. -/
def resolveWithFilter (filterSet : ComponentSet) :
    List ResolvedComponent → ComponentSet → ComponentSet →
    ComponentSet × ComponentSet
  | [], s, acc => (s, acc)
  | rc :: rest, s, acc =>
      if passesFilter filterSet rc then
        resolveWithFilter filterSet rest
          (s.add (ComponentLike.source rc.comp))
          (acc.add (ComponentLike.source rc.comp))
      else
        let kids := rc.children.filter
          (fun ch => filterSet.has (ComponentLike.source ch))
        resolveWithFilter filterSet rest
          (addAllSources s kids) (addAllSources acc kids)

/-- Components admitted by the filter branch for one resolved component:
the component itself when one of the three conditions holds, otherwise
exactly its children that are individually present in the filter. -/
def pickedOf (filterSet : ComponentSet) (rc : ResolvedComponent) :
    List SourceComponent :=
  if passesFilter filterSet rc then [rc.comp]
  else rc.children.filter (fun ch => filterSet.has (ComponentLike.source ch))

/-- All components admitted across a resolved list, in resolution
order. -/
def pickedComponents (filterSet : ComponentSet)
    (resolved : List ResolvedComponent) : List SourceComponent :=
  resolved.flatMap (pickedOf filterSet)

/-! ## Tree container
(`src/src/metadata-registry/fileContainers.ts`).  A directory tree is a
forest of named entries; `readDir` returns child names in stored order,
matching the container-defined stable order of the spec. -/

/-- A file-system entry: a file or a directory with ordered children. -/
inductive FSEntry where
  | file (name : String)
  | dir (name : String) (children : List FSEntry)

/-- Name of an entry. -/
def FSEntry.name : FSEntry → String
  | .file n => n
  | .dir n _ => n

/-- Navigate a forest along path segments. -/
def navigate : List FSEntry → List String → Option FSEntry
  | es, [seg] => es.find? (fun e => e.name == seg)
  | es, seg :: rest =>
      match es.find? (fun e => e.name == seg) with
      | some (.dir _ children) => navigate children rest
      | _ => none
  | _, [] => none

/-- `exists(path)` for the tree container. -/
def treeExists (fs : List FSEntry) (p : String) : Bool :=
  (navigate fs (splitPath p)).isSome

/-- `isDirectory(path)` for the tree container. -/
def treeIsDir (fs : List FSEntry) (p : String) : Bool :=
  match navigate fs (splitPath p) with
  | some (.dir _ _) => true
  | _ => false

/-- `readDir(path)`: immediate child names (empty off directories; the
embedded code only calls it on directories). -/
def treeReadDir (fs : List FSEntry) (p : String) : List String :=
  match navigate fs (splitPath p) with
  | some (.dir _ children) => children.map FSEntry.name
  | _ => []

/-- Child entries of a directory path, for the recursive walk. -/
def childEntries (fs : List FSEntry) (p : String) : List FSEntry :=
  match navigate fs (splitPath p) with
  | some (.dir _ children) => children
  | _ => []

/-- `BaseFileContainer.find`: first name in `readDir(dir)` that starts
with `fullName` and whose descriptor-ness matches `wantMetaXml`. -/
def containerFind (fs : List FSEntry) (dir fullName : String)
    (wantMetaXml : Bool) : Option String :=
  match (treeReadDir fs dir).find? (fun f =>
      let parsed := parseMetadataXml (joinP dir f)
      let metaXmlCondition := if wantMetaXml then parsed.isSome else parsed.isNone
      strStartsWith f fullName && metaXmlCondition) with
  | some f => some (joinP dir f)
  | none => none

/-- `BaseFileContainer.findMetadataXml`. -/
def findMetadataXml (fs : List FSEntry) (dir fullName : String) :
    Option String :=
  containerFind fs dir fullName true

/-- `BaseFileContainer.findContent`. -/
def findContent (fs : List FSEntry) (dir fullName : String) :
    Option String :=
  containerFind fs dir fullName false

/-- JS `array[i]` with an `Int` index: `undefined` when out of range or
negative. -/
def jsIndex {α : Type} (l : List α) (i : Int) : Option α :=
  if i < 0 then none else l.get? i.toNat

/-- `BaseFileContainer.findXmlFromContentPath`: trim the content path to
the type's directory segment plus a fixed offset (2 segments, 3 for
folder-scoped types), then look up the descriptor for that root's base
name in the root's parent directory.  A missing directory segment leaves
JS `findIndex`'s `-1`. -/
def findXmlFromContentPath (fs : List FSEntry) (contentPath : String)
    (t : MetadataType) : Option String :=
  let pathParts := splitPath contentPath
  let typeFolderIndex : Int :=
    match pathParts.findIdx? (fun part => part == t.directoryName) with
    | some i => Int.ofNat i
    | none => -1
  let offset : Int := if t.inFolder then 3 else 2
  let rootContentPath := joinSegs (pathParts.take (typeFolderIndex + offset).toNat)
  let rootTypeDirectory := dirnameP rootContentPath
  let contentFullName := baseName rootContentPath
  findMetadataXml fs rootTypeDirectory contentFullName

/-- `GithubFileContainer`'s tree index: parent path → stored child
paths, as built by `fetch`. -/
def GhTree : Type := List (String × List String)

/-- `GithubFileContainer.exists`:
`this.tree.get(dirname(path)).has(path) || this.tree.has(path)`.  When
`dirname(path)` is not an index key, `get` yields `undefined` and the
`.has` call crashes with a JS `TypeError` instead of answering
`false`. -/
def ghExists (gh : GhTree) (p : String) : Except Err Bool :=
  match alistGet gh (dirnameP p) with
  | none =>
      Except.error (Err.typeError "cannot read property has of undefined")
  | some siblings =>
      Except.ok (siblings.contains p || (alistGet gh p).isSome)

/-! ## RegistryAccess resolver (`src/unnamed/part_000`) -/

/-- A resolver-produced `MetadataComponent`: the fields the resolver
itself reads back (full name and type). -/
structure RComp where
  fullName : String
  type : MetadataType
deriving Repr, DecidableEq

/-- Resolution context: the registry, the backing tree, the
`ForceIgnore` bound for this resolution pass (`denies`), the container's
`exists` (variant-specific, fallible for the GitHub container), and the
source-adapter dispatch.  Modelled from the spec: `ForceIgnore`
(`forceIgnore.ts`) and the source adapters (`adapters/`, spec §4.4) are
not under `src/`, so they enter as abstract parameters — a
deny-predicate and a pure component constructor `adapter.getComponent`
selected by the resolved type. -/
structure ResolverCtx where
  reg : Registry
  fs : List FSEntry
  denies : String → Bool
  adapterGetComponent : MetadataType → String → Option RComp
  containerExists : String → Except Err Bool

/-- A context over the tree container (local/virtual variants), whose
`exists` is total on the backing tree. -/
def treeCtx (reg : Registry) (fs : List FSEntry) (denies : String → Bool)
    (adapterGetComponent : MetadataType → String → Option RComp) :
    ResolverCtx :=
  { reg := reg, fs := fs, denies := denies,
    adapterGetComponent := adapterGetComponent,
    containerExists := fun p => Except.ok (treeExists fs p) }

/-- The folder-components-live-at-top-level exception of attempt 1 of
`determineTypeId`: the candidate type is folder-scoped and the path's
immediate parent is exactly the matched mixed-content directory name. -/
def folderException (t : MetadataType) (p directoryName : String) : Bool :=
  t.inFolder && parentName p == directoryName

/-- Attempt 1 of `determineTypeId` as the source writes it: walk the
mixed-content table in key order; at the first directory name that is a
path segment take its type id, reset it to `undefined` when the
folder-scoped exception applies, and stop the loop either way. -/
def mixedContentLoop (reg : Registry) (p : String) :
    List (String × String) → Except Err (Option String)
  | [] => Except.ok none
  | (directoryName, tid) :: rest =>
      if (splitPath p).contains directoryName then do
        let t ← getTypeFromName reg tid
        if folderException t p directoryName then
          Except.ok none
        else
          Except.ok (some tid)
      else mixedContentLoop reg p rest

/-- `RegistryAccess.determineTypeId`: mixed-content match, then
metadata-descriptor suffix, then raw extension; each later attempt runs
only when the previous one left the id undefined. -/
def determineTypeId (reg : Registry) (p : String) :
    Except Err (Option String) := do
  let a1 ← mixedContentLoop reg p reg.mixedContent
  match a1 with
  | some tid => Except.ok (some tid)
  | none =>
      match parseMetadataXml p with
      | some mx =>
          match alistGet reg.suffixes mx.suffix with
          | some tid => Except.ok (some tid)
          | none => Except.ok ((extName p).bind (alistGet reg.suffixes))
      | none => Except.ok ((extName p).bind (alistGet reg.suffixes))

/-- Claim-side restatement of `determineTypeId` (C5's wording): three
ordered strategies, first match winning.  Strategy 1: if some path
segment equals a registered mixed-content directory name (the first such
entry in registry order), that directory's type id — unless that type is
folder-scoped and the path's immediate parent segment is exactly that
directory name, in which case strategy 1 yields nothing.  Strategy 2:
the suffix-table entry for a descriptor file's embedded suffix.
Strategy 3: the suffix-table entry for the raw file extension. -/
def determineTypeIdSpec (reg : Registry) (p : String) : Option String :=
  let strategy1 : Option String :=
    match reg.mixedContent.find?
        (fun e => (splitPath p).contains e.1) with
    | some (directoryName, tid) =>
        match alistGet reg.types (normalizeTypeName tid) with
        | some t =>
            if folderException t p directoryName then none
            else some tid
        | none => none
    | none => none
  let strategy2 : Option String :=
    match parseMetadataXml p with
    | some mx => alistGet reg.suffixes mx.suffix
    | none => none
  let strategy3 : Option String := (extName p).bind (alistGet reg.suffixes)
  strategy1 <|> strategy2 <|> strategy3

/-- `RegistryAccess.fetchComponent`: skip a denied descriptor file
without error; otherwise infer the type and dispatch to the adapter,
raising `error_could_not_infer_type` when no strategy matched. -/
def fetchComponent (ctx : ResolverCtx) (p : String) :
    Except Err (Option RComp) :=
  if (parseMetadataXml p).isSome && ctx.denies p then Except.ok none
  else do
    match ← determineTypeId ctx.reg p with
    | some tid => do
        let t ← getTypeFromName ctx.reg tid
        Except.ok (ctx.adapterGetComponent t p)
    | none => Except.error (Err.couldNotInferType p)

/-- Mixed-content early-termination test applied after a component is
appended during the directory scan: the component's type directory is
registered as mixed content and the scanned directory (one level higher
for folder-scoped types) is not the type's own directory. -/
def stopsScan (reg : Registry) (c : RComp) (path : String) : Bool :=
  let isMixedContent := (alistGet reg.mixedContent c.type.directoryName).isSome
  let typeDir := basenameP (dirnameP (if c.type.inFolder then dirnameP path else path))
  isMixedContent && !(typeDir == c.type.directoryName)

/-! Mutual size measure for the directory walk. -/

mutual

def entSize : FSEntry → Nat
  | .file _ => 1
  | .dir _ children => 1 + entsSize children

def entsSize : List FSEntry → Nat
  | [] => 0
  | e :: rest => entSize e + entsSize rest

end

/-! The directory walk of `getComponentsFromPathRecursive`.  The single
readdir loop of the source is split into its two independent passes:
`scanDirectoryFiles` is the file pass (directories are only queued, so
the pass skips them), returning the components found plus whether the
mixed-content early return fired; `recurseQueuedDirs` is the recursion
over the queued subdirectories, reached only when the file pass ran to
completion. -/

mutual

def scanDirectoryFiles (ctx : ResolverCtx) (dirPath : String) :
    List FSEntry → Except Err (List RComp × Bool)
  | [] => Except.ok ([], false)
  | .dir _ _ :: rest => scanDirectoryFiles ctx dirPath rest
  | .file name :: rest => do
      let path := joinP dirPath name
      if (parseMetadataXml path).isSome then do
        match ← fetchComponent ctx path with
        | some c =>
            if stopsScan ctx.reg c path then Except.ok ([c], true)
            else do
              let (cs, stopped) ← scanDirectoryFiles ctx dirPath rest
              Except.ok (c :: cs, stopped)
        | none => scanDirectoryFiles ctx dirPath rest
      else scanDirectoryFiles ctx dirPath rest

def recurseQueuedDirs (ctx : ResolverCtx) (dirPath : String) :
    List FSEntry → Except Err (List RComp)
  | [] => Except.ok []
  | .file _ :: rest => recurseQueuedDirs ctx dirPath rest
  | .dir name children :: rest => do
      let cs ← getComponentsFromPathRecursive ctx (joinP dirPath name) children
      let more ← recurseQueuedDirs ctx dirPath rest
      Except.ok (cs ++ more)

def getComponentsFromPathRecursive (ctx : ResolverCtx) (dirPath : String)
    (entries : List FSEntry) : Except Err (List RComp) :=
  if ctx.denies dirPath then Except.ok []
  else do
    let (cs, stopped) ← scanDirectoryFiles ctx dirPath entries
    if stopped then Except.ok cs
    else do
      let more ← recurseQueuedDirs ctx dirPath entries
      Except.ok (cs ++ more)

end

/-- The directory redirect of `getComponentsFromPath`: when a type can
be determined from a directory path and the trailing segment (one level
higher for folder-scoped types) is not the type's directory name, the
path is part of a mixed-content component and resolution is redirected
to `findXmlFromContentPath` (falling back to the directory itself). -/
def dirPathForFetch (ctx : ResolverCtx) (p : String) : Except Err String := do
  match ← determineTypeId ctx.reg p with
  | some tid => do
      let t ← getTypeFromName ctx.reg tid
      let parts := splitPath p
      let folderOffset : Int := if t.inFolder then 2 else 1
      if jsIndex parts ((parts.length : Int) - folderOffset)
          ≠ some t.directoryName then
        Except.ok ((findXmlFromContentPath ctx.fs p t).getD p)
      else Except.ok p
  | none => Except.ok p

/-- The existence gate at the top of `getComponentsFromPath`: consult
the container's `exists` and raise `error_path_not_found` on a missing
path. -/
def resolverGate (containerExists : String → Except Err Bool)
    (p : String) : Except Err Unit := do
  let ex ← containerExists p
  if ex then Except.ok () else Except.error (Err.pathNotFound p)

/-- `RegistryAccess.getComponentsFromPath`: existence gate, directory
redirect or recursive walk for directories, single-component fetch for
files and redirected paths. -/
def getComponentsFromPath (ctx : ResolverCtx) (p : String) :
    Except Err (List RComp) := do
  resolverGate ctx.containerExists p
  if treeIsDir ctx.fs p then do
    let pathForFetch ← dirPathForFetch ctx p
    if pathForFetch == p then
      getComponentsFromPathRecursive ctx p (childEntries ctx.fs p)
    else do
      let c ← fetchComponent ctx pathForFetch
      Except.ok (match c with | some comp => [comp] | none => [])
  else do
    let c ← fetchComponent ctx p
    Except.ok (match c with | some comp => [comp] | none => [])

/-! ## Claim-side models of the set's contents

These definitions follow the wording of the claims (what a sequence of
`add` calls is supposed to leave in the set) and are compared against
the embedded code by the theorems below. -/

/-- Keep the first occurrence of every element (order-preserving
deduplication). -/
def dedupFirst : List String → List String
  | [] => []
  | k :: rest => k :: dedupFirst (rest.filter (fun x => !(x == k)))
termination_by l => l.length
decreasing_by
  exact Nat.lt_succ_of_le (List.length_filter_le _ _)

/-- The distinct outer keys created by a sequence of adds, in first-use
order. -/
def keysOf (cs : List ComponentLike) : List String :=
  dedupFirst (cs.map simpleKey)

/-- The source-backed components among a sequence of adds that fall
under outer key `k`, in add order. -/
def sourcesWithKey (cs : List ComponentLike) (k : String) :
    List SourceComponent :=
  cs.filterMap (fun c =>
    match c with
    | ComponentLike.source sc =>
        if simpleKey c == k then some sc else none
    | ComponentLike.meta _ _ => none)

/-- The inner map produced by upserting a list of source components in
order (first write fixes the position, last write fixes the value). -/
def innerModel (scs : List SourceComponent) :
    List (String × SourceComponent) :=
  scs.foldl (fun m sc => alistSet m (sourceKey sc) sc) []

/-- The expected two-level contents after a sequence of adds. -/
def groupedModel (cs : List ComponentLike) :
    List (String × List (String × SourceComponent)) :=
  (keysOf cs).map (fun k => (k, innerModel (sourcesWithKey cs k)))

/-- Number of distinct source keys among the source-backed adds under
one outer key. -/
def distinctVariantCount (cs : List ComponentLike) (k : String) : Nat :=
  (dedupFirst ((sourcesWithKey cs k).map sourceKey)).length

/-- Claim-side model of full iteration after a sequence of adds: per
distinct outer key in first-use order, the stored source variants when
any exist, else one abstract component rebuilt from the key through the
registry. -/
def iterModel (reg : Registry) (cs : List ComponentLike) :
    Except Err (List ComponentLike) :=
  iterItemsGo reg (groupedModel cs)

/-- A registry type entry that can be looked up again under its own id
(`types[normalize(t.id)] = t`). -/
def typeSelfKeyed (reg : Registry) (t : MetadataType) : Bool :=
  alistGet reg.types (normalizeTypeName t.id) == some t

/-- Coherence of a type's folder link: when `t` is folder-contained,
the folder type exists, is self-keyed with a delimiter-free id, and
links back to `t` through `folderContentType`. -/
def folderLinkOK (reg : Registry) (t : MetadataType) : Bool :=
  match t.folderType with
  | some ft =>
      ((alistGet reg.types (normalizeTypeName ft)).map (fun tf =>
        tf.folderContentType == some t.id && typeSelfKeyed reg tf &&
        !strHasChar tf.id '#')).getD false
  | none => true

/-- Conditions on one manifest type block under which the manifest
round trip can reproduce it: nonempty, delimiter-free members; the block
name resolves to a registry type carrying exactly that name, with no
folder-content substitution pending, self-keyed, delimiter-free id; and
a coherent folder link when the type is folder-contained. -/
def blockOKb (reg : Registry) (tb : PackageTypeMembers) : Bool :=
  !tb.members.isEmpty &&
  tb.members.all (fun mem => !strHasChar mem '#') &&
  ((alistGet reg.types (normalizeTypeName tb.name)).map (fun t =>
      t.name == tb.name && t.folderContentType == none &&
      typeSelfKeyed reg t && !strHasChar t.id '#' &&
      folderLinkOK reg t)).getD false

/-- The type assigned to one manifest member by
`getComponentsFromManifestObject`: the block's type, re-typed to the
folder type when the block type is folder-contained and the member name
has no `/`. -/
def memberType (reg : Registry) (t : MetadataType) (mem : String) :
    MetadataType :=
  match t.folderType with
  | some ft =>
      if strHasChar mem '/' then t
      else (alistGet reg.types (normalizeTypeName ft)).getD t
  | none => t

/-- Placeholder type for total lookups (never reached under the
canonicity conditions). -/
def dummyType : MetadataType :=
  { id := "", name := "", directoryName := "", inFolder := false }

/-- The registry type a manifest block's name resolves to. -/
def blockTypeOf (reg : Registry) (tb : PackageTypeMembers) : MetadataType :=
  (alistGet reg.types (normalizeTypeName tb.name)).getD dummyType

/-- The abstract components a manifest parses to, block by block, member
by member. -/
def manifestComponents (reg : Registry) (m : PackageManifestObject) :
    List ComponentLike :=
  m.types.flatMap (fun tb =>
    tb.members.map (fun mem =>
      ComponentLike.meta mem (memberType reg (blockTypeOf reg tb) mem)))

/-- Outer keys the parsed manifest components would create. -/
def manifestKeys (reg : Registry) (m : PackageManifestObject) :
    List String :=
  match getComponentsFromManifestObject reg m with
  | Except.ok comps => comps.map simpleKey
  | Except.error _ => []

/-- Claim-side restatement of `findXmlFromContentPath` (C7's wording)
for a content path that contains the type's directory-name segment:
trim the path to that segment plus a fixed offset (2 segments normally,
3 when the type is folder-scoped), then return the descriptor found in
the trimmed root's parent directory for the root's base name. -/
def findXmlFromContentPathSpec (fs : List FSEntry) (contentPath : String)
    (t : MetadataType) : Option String :=
  match (splitPath contentPath).findIdx?
      (fun part => part == t.directoryName) with
  | some i =>
      let segCount := i + (if t.inFolder then 3 else 2)
      let root := joinSegs ((splitPath contentPath).take segCount)
      findMetadataXml fs (dirnameP root) (baseName root)
  | none => none

/-! ## Concrete fixtures used by witnesses and counterexamples -/

/-- A plain single-file type. -/
def tyApexClass : MetadataType :=
  { id := "apexclass", name := "ApexClass", directoryName := "classes",
    inFolder := false }

/-- A mixed-content type (content of arbitrary suffix under
`staticresources`). -/
def tyStaticResource : MetadataType :=
  { id := "staticresource", name := "StaticResource",
    directoryName := "staticresources", inFolder := false }

/-- A folder-scoped content type (`reports`), linked to its folder
type. -/
def tyReport : MetadataType :=
  { id := "report", name := "Report", directoryName := "reports",
    inFolder := true, folderType := some "reportfolder" }

/-- The folder-container type for `tyReport`. -/
def tyReportFolder : MetadataType :=
  { id := "reportfolder", name := "ReportFolder", directoryName := "reports",
    inFolder := false, folderContentType := some "report" }

/-- A parent (decomposed) type and a child type for the filter claims. -/
def tyParentObj : MetadataType :=
  { id := "customobject", name := "CustomObject", directoryName := "objects",
    inFolder := false }

/-- Child type of `tyParentObj`. -/
def tyChildField : MetadataType :=
  { id := "customfield", name := "CustomField", directoryName := "objects",
    inFolder := false }

/-- Registry used by the concrete fixtures. -/
def regFix : Registry :=
  { types :=
      [("apexclass", tyApexClass), ("staticresource", tyStaticResource),
       ("report", tyReport), ("reportfolder", tyReportFolder),
       ("customobject", tyParentObj), ("customfield", tyChildField)],
    suffixes :=
      [("cls", "apexclass"), ("resource", "staticresource"),
       ("report", "report")],
    mixedContent := [("staticresources", "staticresource")],
    apiVersion := "50.0" }

/-- A tree with a folder-scoped `reports` layout: a descriptor
`rpt1.report-meta.xml` next to a content directory `rpt1` inside folder
`myfolder`. -/
def fsReports : List FSEntry :=
  [FSEntry.dir "pkg"
    [FSEntry.dir "reports"
      [FSEntry.dir "myfolder"
        [FSEntry.file "rpt1.report-meta.xml",
         FSEntry.dir "rpt1" [FSEntry.file "chart.png"]]]]]

/-- A mixed-content `staticresources` layout: descriptor
`foo.resource-meta.xml` next to a content directory `foo` with a nested
subdirectory. -/
def fsStatic : List FSEntry :=
  [FSEntry.dir "pkg"
    [FSEntry.dir "staticresources"
      [FSEntry.file "foo.resource-meta.xml",
       FSEntry.dir "foo" [FSEntry.dir "sub" [FSEntry.file "x.txt"]]]]]

/-- A directory inside a mixed-content subtree holding two descriptor
files and a subdirectory with a third, for the early-termination
walk. -/
def fsMixScan : List FSEntry :=
  [FSEntry.dir "pkg"
    [FSEntry.dir "staticresources"
      [FSEntry.dir "foo"
        [FSEntry.file "a.resource-meta.xml",
         FSEntry.file "b.resource-meta.xml",
         FSEntry.dir "sub" [FSEntry.file "c.resource-meta.xml"]]]]]

/-- An adapter standing for the spec's source adapters on the fixtures:
it constructs a component of the resolved type named after the path's
base name (spec §8: a single descriptor file resolves to exactly one
component of the inferred type). -/
def adapterFix : MetadataType → String → Option RComp :=
  fun t p => some ⟨baseName p, t⟩

/-- Fixture context denying exactly the nested content directory
`pkg/staticresources/foo/sub`. -/
def ctxDenySub : ResolverCtx :=
  treeCtx regFix fsStatic (fun q => q == "pkg/staticresources/foo/sub")
    adapterFix

/-- Fixture context that denies nothing, over the mixed-content scan
tree. -/
def ctxMixScan : ResolverCtx :=
  treeCtx regFix fsMixScan (fun _ => false) adapterFix

/-- Fixture context denying a descriptor file. -/
def ctxDenyXml : ResolverCtx :=
  treeCtx regFix fsStatic
    (fun q => q == "pkg/staticresources/foo.resource-meta.xml") adapterFix

/-- Fixture context denying the whole `pkg` directory. -/
def ctxDenyPkg : ResolverCtx :=
  treeCtx regFix fsStatic (fun q => q == "pkg") adapterFix

/-! # Theorems

Basic lemmas about the association-list model, then the structural
lemmas connecting `add` sequences to the claim-side models, then one
theorem per claim. -/

theorem except_bind_ok {ε α β : Type} (a : α) (f : α → Except ε β) :
    (do let x ← Except.ok a; f x : Except ε β) = f a := rfl

theorem except_bind_error {ε α β : Type} (e : ε) (f : α → Except ε β) :
    (do let x ← Except.error e; f x : Except ε β) = Except.error e := rfl

theorem alistHas_iff {α : Type} (l : List (String × α)) (k : String) :
    alistHas l k = true ↔ k ∈ l.map Prod.fst := by
  induction l with
  | nil => simp [alistHas]
  | cons e rest ih =>
      cases e with
      | mk k' v =>
          simp [alistHas, ih, beq_iff_eq]
          exact or_congr_left eq_comm

theorem alistGet_isSome_iff {α : Type} (l : List (String × α)) (k : String) :
    (alistGet l k).isSome = true ↔ k ∈ l.map Prod.fst := by
  induction l with
  | nil => simp [alistGet]
  | cons e rest ih =>
      obtain ⟨k', v⟩ := e
      by_cases h : k' = k
      · subst h
        simp [alistGet]
      · simp only [alistGet, beq_iff_eq, if_neg h, List.map_cons,
          List.mem_cons, ih]
        constructor
        · exact fun hk => Or.inr hk
        · rintro (hk | hk)
          · exact absurd hk.symm h
          · exact hk

theorem alistGet_append_right {α : Type} (l1 l2 : List (String × α))
    (k : String) (h : ¬ k ∈ l1.map Prod.fst) :
    alistGet (l1 ++ l2) k = alistGet l2 k := by
  induction l1 with
  | nil => simp
  | cons e rest ih =>
      obtain ⟨k', v⟩ := e
      simp only [List.map_cons, List.mem_cons] at h
      push_neg at h
      have h1 : ¬ k' = k := fun hq => h.1 hq.symm
      simp only [List.cons_append, alistGet, beq_iff_eq, if_neg h1]
      exact ih h.2

theorem alistGet_append_left {α : Type} (l1 l2 : List (String × α))
    (k : String) (v : α) (h : alistGet l1 k = some v) :
    alistGet (l1 ++ l2) k = some v := by
  induction l1 with
  | nil => simp [alistGet] at h
  | cons e rest ih =>
      obtain ⟨k', v'⟩ := e
      by_cases hq : k' = k
      · subst hq
        simp only [alistGet, beq_self_eq_true, if_pos rfl] at h
        simpa [alistGet] using h
      · simp only [alistGet, beq_iff_eq, if_neg hq] at h
        simp only [List.cons_append, alistGet, beq_iff_eq, if_neg hq]
        exact ih h

theorem alistSet_append_right {α : Type} (l1 l2 : List (String × α))
    (k : String) (v : α) (h : ¬ k ∈ l1.map Prod.fst) :
    alistSet (l1 ++ l2) k v = l1 ++ alistSet l2 k v := by
  induction l1 with
  | nil => simp
  | cons e rest ih =>
      obtain ⟨k', v'⟩ := e
      simp only [List.map_cons, List.mem_cons] at h
      push_neg at h
      have h1 : ¬ k' = k := fun hq => h.1 hq.symm
      simp only [List.cons_append, alistSet, beq_iff_eq, if_neg h1]
      simp [ih h.2]

theorem alistGet_alistSet {α : Type} (l : List (String × α))
    (k k' : String) (v : α) :
    alistGet (alistSet l k v) k' =
      if k' = k then some v else alistGet l k' := by
  induction l with
  | nil =>
      by_cases h : k' = k
      · subst h; simp [alistSet, alistGet]
      · have h' : ¬ k = k' := fun hq => h hq.symm
        simp [alistSet, alistGet, h, h']
  | cons e rest ih =>
      obtain ⟨k0, v0⟩ := e
      by_cases h0 : k0 = k
      · subst h0
        by_cases h1 : k' = k0
        · subst h1; simp [alistSet, alistGet]
        · have h1' : ¬ k0 = k' := fun hq => h1 hq.symm
          simp [alistSet, alistGet, h1, h1']
      · by_cases h1 : k0 = k'
        · subst h1
          simp [alistSet, alistGet, h0, fun hq : k0 = k => h0 hq]
        · simp [alistSet, alistGet, h0, h1, ih]

theorem alistHas_alistSet_self {α : Type} (l : List (String × α))
    (k : String) (v : α) : alistHas (alistSet l k v) k = true := by
  rw [alistHas_iff]
  induction l with
  | nil => simp [alistSet]
  | cons e rest ih =>
      obtain ⟨k0, v0⟩ := e
      by_cases h : k0 = k <;> simp [alistSet, h, ih]

theorem alistSet_alistSet_same {α : Type} (l : List (String × α))
    (k : String) (v w : α) :
    alistSet (alistSet l k v) k w = alistSet l k w := by
  induction l with
  | nil => simp [alistSet]
  | cons e rest ih =>
      obtain ⟨k0, v0⟩ := e
      by_cases h : k0 = k <;> simp [alistSet, h, ih]

theorem alistSet_map_fst {α : Type} (l : List (String × α))
    (k : String) (v : α) :
    (alistSet l k v).map Prod.fst =
      if k ∈ l.map Prod.fst then l.map Prod.fst
      else l.map Prod.fst ++ [k] := by
  induction l with
  | nil => simp [alistSet]
  | cons e rest ih =>
      obtain ⟨k0, v0⟩ := e
      by_cases h : k0 = k
      · subst h; simp [alistSet]
      · simp only [alistSet, beq_iff_eq, if_neg h, List.map_cons, ih,
          List.mem_cons]
        have h1 : ¬ k = k0 := fun hq => h hq.symm
        by_cases h2 : k ∈ rest.map Prod.fst <;> simp [h2, h1]

theorem mem_dedupFirst {l : List String} {x : String} :
    x ∈ dedupFirst l ↔ x ∈ l := by
  induction l using dedupFirst.induct with
  | case1 => simp [dedupFirst]
  | case2 k rest ih =>
      rw [dedupFirst]
      by_cases h : x = k
      · subst h; simp
      · simp only [List.mem_cons, ih, List.mem_filter, h, false_or,
          Bool.not_eq_true']
        constructor
        · exact fun hx => hx.1
        · exact fun hx => ⟨hx, by simpa using h⟩

theorem dedupFirst_nodup (l : List String) : (dedupFirst l).Nodup := by
  induction l using dedupFirst.induct with
  | case1 => simp [dedupFirst]
  | case2 k rest ih =>
      rw [dedupFirst]
      refine List.nodup_cons.mpr ⟨?_, ih⟩
      rw [mem_dedupFirst]
      simp

theorem dedupFirst_append_singleton (l : List String) (k : String) :
    dedupFirst (l ++ [k]) =
      if k ∈ l then dedupFirst l else dedupFirst l ++ [k] := by
  induction l using dedupFirst.induct with
  | case1 => simp [dedupFirst]
  | case2 a rest ih =>
      by_cases h : k = a
      · subst h
        simp only [List.cons_append, dedupFirst, List.filter_append]
        simp [dedupFirst]
      · simp only [List.cons_append, dedupFirst, List.filter_append]
        have hke : (k == a) = false := by simpa using h
        have hk : List.filter (fun x => !(x == a)) [k] = [k] := by
          simp [List.filter, hke]
        rw [hk, ih]
        have hmem : k ∈ List.filter (fun x => !(x == a)) rest ↔ k ∈ rest := by
          simp [List.mem_filter, h]
        by_cases h2 : k ∈ rest
        · simp [hmem.mpr h2, h2, h]
        · have : ¬ k ∈ List.filter (fun x => !(x == a)) rest := by
            rw [hmem]; exact h2
          simp [this, h2, h]

theorem dedupFirst_eq_self {l : List String} (h : l.Nodup) :
    dedupFirst l = l := by
  induction l with
  | nil => rw [dedupFirst]
  | cons a rest ih =>
      rw [dedupFirst]
      rw [List.nodup_cons] at h
      have : rest.filter (fun x => !(x == a)) = rest := by
        apply List.filter_eq_self.mpr
        intro x hx
        simp only [Bool.not_eq_eq_eq_not, Bool.not_true, beq_eq_false_iff_ne,
          ne_eq]
        exact fun hq => h.1 (hq ▸ hx)
      rw [this, ih h.2]

theorem alistGet_map_keys (ks : List String) (f : String → α) (k : String)
    (h : k ∈ ks) :
    alistGet (ks.map (fun x => (x, f x))) k = some (f k) := by
  induction ks with
  | nil => simp at h
  | cons a rest ih =>
      by_cases ha : a = k
      · subst ha; simp [alistGet]
      · rcases List.mem_cons.mp h with h1 | h1
        · exact absurd h1.symm ha
        · simp only [List.map_cons, alistGet, beq_iff_eq, if_neg ha]
          exact ih h1

theorem alistSet_map_keys (ks : List String) (f : String → α) (k : String)
    (v : α) (hnd : ks.Nodup) (h : k ∈ ks) :
    alistSet (ks.map (fun x => (x, f x))) k v =
      ks.map (fun x => (x, if x = k then v else f x)) := by
  induction ks with
  | nil => simp at h
  | cons a rest ih =>
      rw [List.nodup_cons] at hnd
      by_cases ha : a = k
      · subst ha
        simp only [List.map_cons, alistSet, beq_self_eq_true, if_pos rfl]
        have : ∀ x ∈ rest, (x, if x = a then v else f x) = (x, f x) := by
          intro x hx
          have : ¬ x = a := fun hq => hnd.1 (hq ▸ hx)
          simp [this]
        simp [List.map_congr_left this]
      · rcases List.mem_cons.mp h with h1 | h1
        · exact absurd h1.symm ha
        · simp only [List.map_cons, alistSet, beq_iff_eq, if_neg ha,
            ih hnd.2 h1, ha]
          simp [ha]

theorem sourcesWithKey_append (cs cs' : List ComponentLike) (k : String) :
    sourcesWithKey (cs ++ cs') k =
      sourcesWithKey cs k ++ sourcesWithKey cs' k := by
  simp [sourcesWithKey, List.filterMap_append]

theorem sourcesWithKey_meta (fn : String) (t : MetadataType) (k : String) :
    sourcesWithKey [ComponentLike.meta fn t] k = [] := rfl

theorem sourcesWithKey_source (sc : SourceComponent) (k : String) :
    sourcesWithKey [ComponentLike.source sc] k =
      if simpleKey (ComponentLike.source sc) = k then [sc] else [] := by
  simp only [sourcesWithKey, List.filterMap]
  by_cases h : simpleKey (ComponentLike.source sc) = k <;> simp [h]

theorem sourcesWithKey_eq_nil {cs : List ComponentLike} {k : String}
    (h : ¬ k ∈ cs.map simpleKey) : sourcesWithKey cs k = [] := by
  induction cs with
  | nil => rfl
  | cons c rest ih =>
      simp only [List.map_cons, List.mem_cons] at h
      push_neg at h
      have hrest := ih h.2
      cases c with
      | meta fn t => simpa [sourcesWithKey, List.filterMap] using hrest
      | source sc =>
          have : (simpleKey (ComponentLike.source sc) == k) = false := by
            simpa using fun hq => h.1 hq.symm
          simpa [sourcesWithKey, List.filterMap, this] using hrest

theorem keysOf_append_singleton (cs : List ComponentLike)
    (c : ComponentLike) :
    keysOf (cs ++ [c]) =
      if simpleKey c ∈ cs.map simpleKey then keysOf cs
      else keysOf cs ++ [simpleKey c] := by
  simp [keysOf, List.map_append, dedupFirst_append_singleton]

theorem mem_keysOf {cs : List ComponentLike} {k : String} :
    k ∈ keysOf cs ↔ k ∈ cs.map simpleKey := mem_dedupFirst

theorem keysOf_nodup (cs : List ComponentLike) : (keysOf cs).Nodup :=
  dedupFirst_nodup _

theorem innerModel_append_singleton (scs : List SourceComponent)
    (sc : SourceComponent) :
    innerModel (scs ++ [sc]) =
      alistSet (innerModel scs) (sourceKey sc) sc := by
  simp [innerModel, List.foldl_append]

theorem groupedModel_map_fst (cs : List ComponentLike) :
    (groupedModel cs).map Prod.fst = keysOf cs := by
  unfold groupedModel
  rw [List.map_map]
  have : (Prod.fst ∘ fun k => (k, innerModel (sourcesWithKey cs k))) =
      fun k => k := rfl
  rw [this, List.map_id']

theorem buildSet_append_singleton (reg : Registry) (cs : List ComponentLike)
    (c : ComponentLike) :
    buildSet reg (cs ++ [c]) = (buildSet reg cs).add c := by
  simp [buildSet, List.foldl_append]

theorem buildSet_components (reg : Registry) (cs : List ComponentLike) :
    (buildSet reg cs).components = groupedModel cs := by
  induction cs using List.reverseRecOn with
  | nil =>
      have h0 : dedupFirst [] = [] := by rw [dedupFirst.eq_def]
      simp [buildSet, ComponentSet.empty, groupedModel, keysOf, h0]
  | append_singleton cs c ih =>
      rw [buildSet_append_singleton]
      by_cases hmem : simpleKey c ∈ cs.map simpleKey
      · -- existing outer key
        have hhas : alistHas (buildSet reg cs).components (simpleKey c) = true := by
          rw [ih, alistHas_iff, groupedModel_map_fst, mem_keysOf]
          exact hmem
        have hkeys : keysOf (cs ++ [c]) = keysOf cs := by
          rw [keysOf_append_singleton, if_pos hmem]
        cases c with
        | meta fn t =>
            have : (buildSet reg cs).add (ComponentLike.meta fn t) =
                { buildSet reg cs with
                  components := (buildSet reg cs).components } := by
              simp [ComponentSet.add, hhas]
            rw [this, ih]
            unfold groupedModel
            rw [hkeys]
            refine List.map_congr_left ?_
            intro k hk
            rw [sourcesWithKey_append, sourcesWithKey_meta, List.append_nil]
        | source sc =>
            have hstep : ((buildSet reg cs).add (ComponentLike.source sc)).components =
                alistSet (buildSet reg cs).components
                  (simpleKey (ComponentLike.source sc))
                  (alistSet
                    ((alistGet (buildSet reg cs).components
                      (simpleKey (ComponentLike.source sc))).getD [])
                    (sourceKey sc) sc) := by
              simp [ComponentSet.add, hhas]
            rw [hstep, ih]
            have hget : alistGet (groupedModel cs)
                (simpleKey (ComponentLike.source sc)) =
                some (innerModel (sourcesWithKey cs
                  (simpleKey (ComponentLike.source sc)))) := by
              unfold groupedModel
              exact alistGet_map_keys _ _ _ (mem_keysOf.mpr hmem)
            rw [hget]
            unfold groupedModel
            rw [alistSet_map_keys _ _ _ _ (keysOf_nodup cs) (mem_keysOf.mpr hmem)]
            rw [hkeys]
            refine List.map_congr_left ?_
            intro k hk
            by_cases hkc : k = simpleKey (ComponentLike.source sc)
            · subst hkc
              simp only [eq_self_iff_true, if_true, Option.getD_some]
              rw [sourcesWithKey_append, sourcesWithKey_source, if_pos rfl,
                innerModel_append_singleton]
            · simp only [if_neg hkc]
              rw [sourcesWithKey_append, sourcesWithKey_source,
                if_neg (fun hq => hkc hq.symm), List.append_nil]
      · -- new outer key
        have hhas : alistHas (buildSet reg cs).components (simpleKey c) = false := by
          rw [ih]
          apply Bool.not_eq_true _ |>.mp
          rw [alistHas_iff, groupedModel_map_fst, mem_keysOf]
          exact hmem
        have hkeys : keysOf (cs ++ [c]) = keysOf cs ++ [simpleKey c] := by
          rw [keysOf_append_singleton, if_neg hmem]
        have hnotfst : ¬ simpleKey c ∈ (groupedModel cs).map Prod.fst := by
          rw [groupedModel_map_fst, mem_keysOf]
          exact hmem
        have hcongr : ∀ k ∈ keysOf cs,
            (k, innerModel (sourcesWithKey (cs ++ [c]) k)) =
            (k, innerModel (sourcesWithKey cs k)) := by
          intro k hk
          have hkc : ¬ simpleKey c = k := by
            intro hq
            exact hmem (hq ▸ mem_keysOf.mp hk)
          cases c with
          | meta fn t =>
              rw [sourcesWithKey_append, sourcesWithKey_meta, List.append_nil]
          | source sc =>
              rw [sourcesWithKey_append, sourcesWithKey_source, if_neg hkc,
                List.append_nil]
        cases c with
        | meta fn t =>
            have : ((buildSet reg cs).add (ComponentLike.meta fn t)).components =
                (buildSet reg cs).components ++
                  [(simpleKey (ComponentLike.meta fn t), [])] := by
              simp [ComponentSet.add, hhas]
            rw [this, ih]
            unfold groupedModel
            rw [hkeys, List.map_append]
            congr 1
            · exact (List.map_congr_left hcongr).symm
            · simp only [List.map_cons, List.map_nil]
              rw [sourcesWithKey_append, sourcesWithKey_eq_nil hmem,
                List.nil_append, sourcesWithKey_meta]
              rfl
        | source sc =>
            have hstep : ((buildSet reg cs).add (ComponentLike.source sc)).components =
                alistSet ((buildSet reg cs).components ++
                    [(simpleKey (ComponentLike.source sc), [])])
                  (simpleKey (ComponentLike.source sc))
                  (alistSet
                    ((alistGet ((buildSet reg cs).components ++
                      [(simpleKey (ComponentLike.source sc), [])])
                      (simpleKey (ComponentLike.source sc))).getD [])
                    (sourceKey sc) sc) := by
              simp [ComponentSet.add, hhas]
            rw [hstep, ih]
            have hget : alistGet ((groupedModel cs) ++
                [(simpleKey (ComponentLike.source sc), [])])
                (simpleKey (ComponentLike.source sc)) =
                some ([] : List (String × SourceComponent)) := by
              rw [alistGet_append_right _ _ _ hnotfst]
              simp [alistGet]
            rw [hget]
            rw [alistSet_append_right _ _ _ _ hnotfst]
            unfold groupedModel
            rw [hkeys, List.map_append]
            congr 1
            · exact (List.map_congr_left hcongr).symm
            · simp only [List.map_cons, List.map_nil, Option.getD_some]
              rw [sourcesWithKey_append, sourcesWithKey_eq_nil hmem,
                List.nil_append, sourcesWithKey_source, if_pos rfl]
              simp [alistSet, innerModel]

theorem innerModel_map_fst (scs : List SourceComponent) :
    (innerModel scs).map Prod.fst = dedupFirst (scs.map sourceKey) := by
  induction scs using List.reverseRecOn with
  | nil =>
      have h0 : dedupFirst [] = [] := by rw [dedupFirst.eq_def]
      simp [innerModel, h0]
  | append_singleton l sc ih =>
      rw [innerModel_append_singleton, alistSet_map_fst, ih, List.map_append]
      simp only [List.map_cons, List.map_nil]
      rw [dedupFirst_append_singleton]
      by_cases h : sourceKey sc ∈ l.map sourceKey
      · rw [if_pos (mem_dedupFirst.mpr h), if_pos h]
      · rw [if_neg (fun hq => h (mem_dedupFirst.mp hq)), if_neg h]

theorem innerModel_length (scs : List SourceComponent) :
    (innerModel scs).length = (dedupFirst (scs.map sourceKey)).length := by
  rw [← innerModel_map_fst, List.length_map]

/-- C1 (amended): after any sequence of adds, `size` is the sum, over
the distinct (type, fullName) outer keys, of the number of distinct
stored source-backed variants under that key — counting 1 for a key with
no variants.  A key backed by several distinct variants therefore
contributes one per variant, not one in total. -/
theorem c1_size_counts_stored_variants (reg : Registry)
    (cs : List ComponentLike) :
    (buildSet reg cs).size =
      ((keysOf cs).map (fun k => max 1 (distinctVariantCount cs k))).sum := by
  unfold ComponentSet.size
  rw [buildSet_components]
  unfold groupedModel
  rw [List.map_map]
  congr 1
  refine List.map_congr_left ?_
  intro k _
  show (if (innerModel (sourcesWithKey cs k)).isEmpty then 1
    else (innerModel (sourcesWithKey cs k)).length) =
    max 1 (distinctVariantCount cs k)
  have hlen : (innerModel (sourcesWithKey cs k)).length =
      distinctVariantCount cs k := innerModel_length _
  rw [← hlen]
  cases hm : innerModel (sourcesWithKey cs k) with
  | nil => simp
  | cons a t =>
      have : 1 ≤ (a :: t).length := Nat.succ_le_succ (Nat.zero_le _)
      simp [Nat.max_eq_right this]

/-- C1 counterexample: two distinct source-backed variants of the single
pair (ApexClass, "Foo") make `size` 2, not 1 — `size` does not count
distinct (type, fullName) pairs. -/
theorem c1_counterexample :
    (simpleKey (ComponentLike.source
        ⟨"Foo", tyApexClass, some "a/Foo.cls-meta.xml", none⟩) =
      simpleKey (ComponentLike.source
        ⟨"Foo", tyApexClass, some "b/Foo.cls-meta.xml", none⟩)) ∧
    (buildSet regFix
      [ComponentLike.source ⟨"Foo", tyApexClass, some "a/Foo.cls-meta.xml", none⟩,
       ComponentLike.source ⟨"Foo", tyApexClass, some "b/Foo.cls-meta.xml", none⟩]).size
      = 2 := by
  constructor
  · rfl
  · decide

theorem splitCharsAux_of_not_mem (sep : Char) (l acc : List Char)
    (h : ¬ sep ∈ l) : splitCharsAux sep l acc = [acc.reverse ++ l] := by
  induction l generalizing acc with
  | nil => simp [splitCharsAux]
  | cons c rest ih =>
      simp only [List.mem_cons] at h
      push_neg at h
      have hc : (c == sep) = false := by
        simpa using fun hq => h.1 hq.symm
      rw [splitCharsAux, if_neg (by simp [hc]), ih _ h.2]
      simp

theorem splitCharsAux_sep_split (sep : Char) (l1 l2 acc : List Char)
    (h : ¬ sep ∈ l1) :
    splitCharsAux sep (l1 ++ sep :: l2) acc =
      (acc.reverse ++ l1) :: splitCharsAux sep l2 [] := by
  induction l1 generalizing acc with
  | nil => simp [splitCharsAux]
  | cons c rest ih =>
      simp only [List.mem_cons] at h
      push_neg at h
      have hc : (c == sep) = false := by
        simpa using fun hq => h.1 hq.symm
      rw [List.cons_append, splitCharsAux, if_neg (by simp [hc]), ih _ h.2]
      simp

theorem string_mk_data (s : String) : String.mk s.data = s := rfl

theorem splitC_concat_key (a b : String) (ha : ¬ '#' ∈ a.data)
    (hb : ¬ '#' ∈ b.data) : splitC '#' (a ++ "#" ++ b) = [a, b] := by
  unfold splitC
  have hdata : (a ++ "#" ++ b).data = a.data ++ '#' :: b.data := by
    simp [String.data_append]
  rw [hdata, splitCharsAux_sep_split _ _ _ _ ha,
    splitCharsAux_of_not_mem _ _ _ hb]
  simp [string_mk_data]

theorem strHasChar_not_mem {s : String} {c : Char}
    (h : ¬ strHasChar s c = true) : ¬ c ∈ s.data := by
  simpa [strHasChar] using h

/-- C2 (amended): full iteration after any sequence of adds yields, per
outer key in first-use order, every stored source variant when any
exists, else exactly one abstract component rebuilt from the key — its
type is the registry entry for the key's type-id part and its full name
is the key part after the first `#`.  The rebuilt pair equals the added
(type, fullName) provided the full name and the type id are free of the
`#` key delimiter and the type is registered under its own id. -/
theorem c2_iteration_per_key (reg : Registry) (cs : List ComponentLike)
    (full : String) (t : MetadataType)
    (hfull : ¬ strHasChar full '#' = true)
    (hid : ¬ strHasChar t.id '#' = true)
    (hself : alistGet reg.types (normalizeTypeName t.id) = some t) :
    ComponentSet.iterItems reg (buildSet reg cs) = iterModel reg cs ∧
    keyTypeName (simpleKey (ComponentLike.meta full t)) = t.id ∧
    keyFullName (simpleKey (ComponentLike.meta full t)) = full ∧
    getTypeFromName reg
      (keyTypeName (simpleKey (ComponentLike.meta full t))) =
      Except.ok t := by
  have hsplit : splitC '#' (simpleKey (ComponentLike.meta full t)) =
      [t.id, full] := by
    have : simpleKey (ComponentLike.meta full t) = t.id ++ "#" ++ full := rfl
    rw [this]
    exact splitC_concat_key _ _ (strHasChar_not_mem hid)
      (strHasChar_not_mem hfull)
  have hkt : keyTypeName (simpleKey (ComponentLike.meta full t)) = t.id := by
    rw [keyTypeName, hsplit]; rfl
  refine ⟨?_, hkt, ?_, ?_⟩
  · unfold ComponentSet.iterItems iterModel
    rw [buildSet_components]
  · rw [keyFullName, hsplit]; rfl
  · rw [hkt]
    simp [getTypeFromName, hself]

/-- C2 witness: a concrete instance of `c2_iteration_per_key` at the set
`{(ApexClass, "Foo")}`. -/
theorem c2_witness :
    (¬ strHasChar "Foo" '#' = true) ∧
    (ComponentSet.iterItems regFix
        (buildSet regFix [ComponentLike.meta "Foo" tyApexClass]) =
      iterModel regFix [ComponentLike.meta "Foo" tyApexClass] ∧
    keyTypeName (simpleKey (ComponentLike.meta "Foo" tyApexClass)) =
      tyApexClass.id ∧
    keyFullName (simpleKey (ComponentLike.meta "Foo" tyApexClass)) = "Foo" ∧
    getTypeFromName regFix
      (keyTypeName (simpleKey (ComponentLike.meta "Foo" tyApexClass))) =
      Except.ok tyApexClass) :=
  ⟨by decide,
   c2_iteration_per_key regFix [ComponentLike.meta "Foo" tyApexClass]
     "Foo" tyApexClass (by decide) (by decide) (by decide)⟩

/-- C2 counterexample: an abstract component added with full name
`a#b` is yielded back with full name `a` — iteration does not carry the
added full name when it contains the key delimiter. -/
theorem c2_counterexample :
    ComponentSet.iterItems regFix
        (buildSet regFix [ComponentLike.meta "a#b" tyApexClass]) =
      Except.ok [ComponentLike.meta "a" tyApexClass] ∧
    ("a" : String) ≠ "a#b" := by
  constructor
  · decide
  · decide

theorem alistHas_append_self {α : Type} (l : List (String × α))
    (k : String) (v : α) : alistHas (l ++ [(k, v)]) k = true := by
  rw [alistHas_iff]
  simp

theorem alistGet_some_mem_fst {α : Type} {l : List (String × α)}
    {k : String} {v : α} (h : alistGet l k = some v) :
    k ∈ l.map Prod.fst := by
  rw [← alistGet_isSome_iff, h]
  rfl

theorem add_has_self (s : ComponentSet) (c : ComponentLike) :
    (s.add c).has c = true := by
  unfold ComponentSet.add ComponentSet.has
  cases c with
  | meta fn t =>
      by_cases h : alistHas s.components (simpleKey (ComponentLike.meta fn t)) = true
      · simp [h]
      · have h' : alistHas s.components (simpleKey (ComponentLike.meta fn t)) = false :=
          Bool.not_eq_true _ |>.mp h
        simp only [h']
        exact alistHas_append_self _ _ _
  | source sc =>
      by_cases h : alistHas s.components (simpleKey (ComponentLike.source sc)) = true
      · simp only [h, if_true]
        exact alistHas_alistSet_self _ _ _
      · have h' : alistHas s.components (simpleKey (ComponentLike.source sc)) = false :=
          Bool.not_eq_true _ |>.mp h
        simp only [h', if_false]
        exact alistHas_alistSet_self _ _ _

theorem add_idempotent (s : ComponentSet) (c : ComponentLike) :
    (s.add c).add c = s.add c := by
  cases c with
  | meta fn t =>
      by_cases h : alistHas s.components (simpleKey (ComponentLike.meta fn t)) = true
      · simp [ComponentSet.add, h]
      · have h' : alistHas s.components (simpleKey (ComponentLike.meta fn t)) = false :=
          Bool.not_eq_true _ |>.mp h
        simp [ComponentSet.add, h', alistHas_append_self]
  | source sc =>
      have hsets : ∀ l : List (String × List (String × SourceComponent)),
          alistSet
            (alistSet l (simpleKey (ComponentLike.source sc))
              (alistSet ((alistGet l (simpleKey (ComponentLike.source sc))).getD [])
                (sourceKey sc) sc))
            (simpleKey (ComponentLike.source sc))
            (alistSet
              ((alistGet
                (alistSet l (simpleKey (ComponentLike.source sc))
                  (alistSet ((alistGet l (simpleKey (ComponentLike.source sc))).getD [])
                    (sourceKey sc) sc))
                (simpleKey (ComponentLike.source sc))).getD [])
              (sourceKey sc) sc) =
          alistSet l (simpleKey (ComponentLike.source sc))
            (alistSet ((alistGet l (simpleKey (ComponentLike.source sc))).getD [])
              (sourceKey sc) sc) := by
        intro l
        rw [alistGet_alistSet, if_pos rfl, Option.getD_some,
          alistSet_alistSet_same, alistSet_alistSet_same]
      by_cases h : alistHas s.components (simpleKey (ComponentLike.source sc)) = true
      · simp only [ComponentSet.add, h, if_true,
          alistHas_alistSet_self _ _ _]
        congr 1
        exact hsets _
      · have h' : alistHas s.components (simpleKey (ComponentLike.source sc)) = false :=
          Bool.not_eq_true _ |>.mp h
        simp only [ComponentSet.add, h', if_false,
          alistHas_alistSet_self _ _ _, if_true]
        congr 1
        exact hsets _

/-- C10 (amended): immediately after `add(c)` the set `has` `c`, and a
second identical `add` changes nothing; a stored entry is never removed
by a later `add`, and it is replaced only by a component whose outer key
and whose concatenated source key both coincide with it — components
whose undelimited `type.name + fullName + xml + content` concatenations
collide do overwrite one another. -/
theorem c10_add_idempotent_and_monotone (s : ComponentSet)
    (c : ComponentLike) (k sk : String)
    (inner : List (String × SourceComponent)) (sc : SourceComponent)
    (hget : alistGet s.components k = some inner)
    (hsc : alistGet inner sk = some sc) :
    (s.add c).has c = true ∧
    (s.add c).add c = s.add c ∧
    ∃ inner', alistGet (s.add c).components k = some inner' ∧
      ∃ sc', alistGet inner' sk = some sc' ∧
        (sc' = sc ∨ ∃ csc, c = ComponentLike.source csc ∧
          simpleKey c = k ∧ sourceKey csc = sk ∧ sc' = csc) := by
  refine ⟨add_has_self s c, add_idempotent s c, ?_⟩
  have hkfst : k ∈ s.components.map Prod.fst := alistGet_some_mem_fst hget
  cases c with
  | meta fn t =>
      by_cases h : alistHas s.components (simpleKey (ComponentLike.meta fn t)) = true
      · refine ⟨inner, ?_, sc, hsc, Or.inl rfl⟩
        simpa [ComponentSet.add, h] using hget
      · have h' : alistHas s.components (simpleKey (ComponentLike.meta fn t)) = false :=
          Bool.not_eq_true _ |>.mp h
        refine ⟨inner, ?_, sc, hsc, Or.inl rfl⟩
        have hc : (s.add (ComponentLike.meta fn t)).components =
            s.components ++ [(simpleKey (ComponentLike.meta fn t), [])] := by
          simp [ComponentSet.add, h']
        rw [hc]
        exact alistGet_append_left _ _ _ _ hget
  | source csc =>
      by_cases hkey : k = simpleKey (ComponentLike.source csc)
      · -- the add touches exactly this outer key
        have hhas : alistHas s.components (simpleKey (ComponentLike.source csc)) = true := by
          rw [alistHas_iff]
          exact hkey ▸ hkfst
        have hcomps : (s.add (ComponentLike.source csc)).components =
            alistSet s.components (simpleKey (ComponentLike.source csc))
              (alistSet inner (sourceKey csc) csc) := by
          have hgetk : alistGet s.components
              (simpleKey (ComponentLike.source csc)) = some inner := by
            rw [← hkey]; exact hget
          simp [ComponentSet.add, hhas, hgetk]
        refine ⟨alistSet inner (sourceKey csc) csc, ?_, ?_⟩
        · rw [hcomps, alistGet_alistSet, if_pos hkey]
        · by_cases hsk : sk = sourceKey csc
          · refine ⟨csc, ?_, Or.inr ⟨csc, rfl, hkey.symm, hsk.symm, rfl⟩⟩
            rw [alistGet_alistSet, if_pos hsk]
          · refine ⟨sc, ?_, Or.inl rfl⟩
            rw [alistGet_alistSet, if_neg hsk]
            exact hsc
      · -- a different outer key: the entry is untouched
        refine ⟨inner, ?_, sc, hsc, Or.inl rfl⟩
        by_cases hhas : alistHas s.components (simpleKey (ComponentLike.source csc)) = true
        · have hc : (s.add (ComponentLike.source csc)).components =
              alistSet s.components (simpleKey (ComponentLike.source csc))
                (alistSet
                  ((alistGet s.components (simpleKey (ComponentLike.source csc))).getD [])
                  (sourceKey csc) csc) := by
            simp [ComponentSet.add, hhas]
          rw [hc, alistGet_alistSet, if_neg hkey]
          exact hget
        · have h' : alistHas s.components (simpleKey (ComponentLike.source csc)) = false :=
            Bool.not_eq_true _ |>.mp hhas
          have hc : (s.add (ComponentLike.source csc)).components =
              alistSet (s.components ++ [(simpleKey (ComponentLike.source csc), [])])
                (simpleKey (ComponentLike.source csc))
                (alistSet
                  ((alistGet (s.components ++ [(simpleKey (ComponentLike.source csc), [])])
                    (simpleKey (ComponentLike.source csc))).getD [])
                  (sourceKey csc) csc) := by
            simp [ComponentSet.add, h']
          rw [hc, alistGet_alistSet, if_neg hkey]
          exact alistGet_append_left _ _ _ _ hget

/-- C10 witness: a concrete instance of
`c10_add_idempotent_and_monotone` — adding a second variant of the same
pair keeps the first variant stored. -/
theorem c10_witness :
    (alistGet (buildSet regFix
        [ComponentLike.source ⟨"Foo", tyApexClass, some "a/Foo.cls-meta.xml", none⟩]).components
        "apexclass#Foo" =
      some [("ApexClassFooa/Foo.cls-meta.xml",
        ⟨"Foo", tyApexClass, some "a/Foo.cls-meta.xml", none⟩)]) ∧
    ∃ inner', alistGet
        ((buildSet regFix
          [ComponentLike.source ⟨"Foo", tyApexClass, some "a/Foo.cls-meta.xml", none⟩]).add
          (ComponentLike.source ⟨"Foo", tyApexClass, some "b/Foo.cls-meta.xml", none⟩)).components
        "apexclass#Foo" = some inner' ∧
      ∃ sc', alistGet inner' "ApexClassFooa/Foo.cls-meta.xml" = some sc' ∧
        (sc' = ⟨"Foo", tyApexClass, some "a/Foo.cls-meta.xml", none⟩ ∨
          ∃ csc, ComponentLike.source
              (⟨"Foo", tyApexClass, some "b/Foo.cls-meta.xml", none⟩ : SourceComponent) =
              ComponentLike.source csc ∧
            simpleKey (ComponentLike.source
              (⟨"Foo", tyApexClass, some "b/Foo.cls-meta.xml", none⟩ : SourceComponent)) =
              "apexclass#Foo" ∧
            sourceKey csc = "ApexClassFooa/Foo.cls-meta.xml" ∧ sc' = csc) :=
  ⟨by decide,
   (c10_add_idempotent_and_monotone
      (buildSet regFix
        [ComponentLike.source ⟨"Foo", tyApexClass, some "a/Foo.cls-meta.xml", none⟩])
      (ComponentLike.source ⟨"Foo", tyApexClass, some "b/Foo.cls-meta.xml", none⟩)
      "apexclass#Foo" "ApexClassFooa/Foo.cls-meta.xml"
      [("ApexClassFooa/Foo.cls-meta.xml",
        ⟨"Foo", tyApexClass, some "a/Foo.cls-meta.xml", none⟩)]
      ⟨"Foo", tyApexClass, some "a/Foo.cls-meta.xml", none⟩
      (by decide) (by decide)).2.2⟩

/-- C10 counterexample: two distinct components whose undelimited source
keys collide — `(xml "ab", no content)` versus `(xml "a", content "b")`
under the same pair — so the second `add` replaces the first: iteration
afterwards yields only the second component. -/
theorem c10_counterexample :
    ((⟨"x", tyApexClass, some "ab", none⟩ : SourceComponent) ≠
      ⟨"x", tyApexClass, some "a", some "b"⟩) ∧
    sourceKey ⟨"x", tyApexClass, some "ab", none⟩ =
      sourceKey ⟨"x", tyApexClass, some "a", some "b"⟩ ∧
    ComponentSet.iterItems regFix (buildSet regFix
        [ComponentLike.source ⟨"x", tyApexClass, some "ab", none⟩,
         ComponentLike.source ⟨"x", tyApexClass, some "a", some "b"⟩]) =
      Except.ok [ComponentLike.source ⟨"x", tyApexClass, some "a", some "b"⟩] := by
  refine ⟨by decide, by decide, by decide⟩

theorem alistHas_alistSet_mono {α : Type} (l : List (String × α))
    (k : String) (v : α) (d : String) (h : alistHas l d = true) :
    alistHas (alistSet l k v) d = true := by
  rw [alistHas_iff] at h ⊢
  rw [alistSet_map_fst]
  by_cases hm : k ∈ l.map Prod.fst
  · simpa [hm] using h
  · simp only [if_neg hm, List.mem_append]
    exact Or.inl h

theorem alistHas_append_mono {α : Type} (l l' : List (String × α))
    (d : String) (h : alistHas l d = true) :
    alistHas (l ++ l') d = true := by
  rw [alistHas_iff] at h ⊢
  rw [List.map_append, List.mem_append]
  exact Or.inl h

theorem has_add_mono (s : ComponentSet) (c d : ComponentLike)
    (h : s.has d = true) : (s.add c).has d = true := by
  unfold ComponentSet.has at h ⊢
  cases c with
  | meta fn t =>
      by_cases hh : alistHas s.components (simpleKey (ComponentLike.meta fn t)) = true
      · simpa [ComponentSet.add, hh] using h
      · have h' : alistHas s.components (simpleKey (ComponentLike.meta fn t)) = false :=
          Bool.not_eq_true _ |>.mp hh
        simp only [ComponentSet.add, h', if_false]
        exact alistHas_append_mono _ _ _ h
  | source sc =>
      by_cases hh : alistHas s.components (simpleKey (ComponentLike.source sc)) = true
      · simp only [ComponentSet.add, hh, if_true]
        exact alistHas_alistSet_mono _ _ _ _ h
      · have h' : alistHas s.components (simpleKey (ComponentLike.source sc)) = false :=
          Bool.not_eq_true _ |>.mp hh
        simp only [ComponentSet.add, h', if_false]
        exact alistHas_alistSet_mono _ _ _ _ (alistHas_append_mono _ _ _ h)

theorem addAllSources_has_mono (cs : List SourceComponent)
    (s : ComponentSet) (d : ComponentLike) (h : s.has d = true) :
    (addAllSources s cs).has d = true := by
  induction cs generalizing s with
  | nil => exact h
  | cons c rest ih =>
      exact ih _ (has_add_mono _ _ _ h)

theorem addAllSources_has_mem (cs : List SourceComponent)
    (s : ComponentSet) (c : SourceComponent) (h : c ∈ cs) :
    (addAllSources s cs).has (ComponentLike.source c) = true := by
  induction cs generalizing s with
  | nil => simp at h
  | cons a rest ih =>
      show (addAllSources (s.add (ComponentLike.source a)) rest).has
        (ComponentLike.source c) = true
      rcases List.mem_cons.mp h with h1 | h1
      · subst h1
        exact addAllSources_has_mono _ _ _ (add_has_self _ _)
      · exact ih _ h1

theorem resolveWithFilter_eq (f : ComponentSet)
    (resolved : List ResolvedComponent) :
    ∀ s acc, resolveWithFilter f resolved s acc =
      (addAllSources s (pickedComponents f resolved),
       addAllSources acc (pickedComponents f resolved)) := by
  induction resolved with
  | nil =>
      intro s acc
      simp [resolveWithFilter, pickedComponents, addAllSources]
  | cons rc rest ih =>
      intro s acc
      have hp : pickedComponents f (rc :: rest) =
          pickedOf f rc ++ pickedComponents f rest := by
        simp [pickedComponents]
      by_cases h : passesFilter f rc = true
      · rw [resolveWithFilter, if_pos h, ih, hp]
        rw [pickedOf, if_pos h]
        rfl
      · have h' : passesFilter f rc = false := Bool.not_eq_true _ |>.mp h
        rw [resolveWithFilter, if_neg (by simp [h']), ih, hp]
        rw [pickedOf, if_neg (by simp [h'])]
        unfold addAllSources
        rw [List.foldl_append, List.foldl_append]

/-- C3 (amended): with a filter supplied, a resolved component is added
exactly when the filter contains it, contains a wildcard for its type,
or contains its parent (exactly or via wildcard for the parent's type);
when none of these hold, only those of its children that are
individually present in the filter are added — a child is not tested
against the wildcard or parent conditions.  In particular, a wildcard
for type T admits every resolved component of type T, and every admitted
component is a member of the returned set. -/
theorem c3_filtered_resolution (f : ComponentSet)
    (resolved : List ResolvedComponent) (s acc : ComponentSet)
    (rc : ResolvedComponent) (hrc : rc ∈ resolved)
    (hw : f.has (wildcardOf rc.comp.type) = true) :
    (resolveWithFilter f resolved s acc =
      (addAllSources s (pickedComponents f resolved),
       addAllSources acc (pickedComponents f resolved))) ∧
    rc.comp ∈ pickedComponents f resolved ∧
    (resolveWithFilter f resolved s acc).2.has
      (ComponentLike.source rc.comp) = true := by
  have hpass : passesFilter f rc = true := by
    unfold passesFilter
    rw [hw]
    simp
  have hmem : rc.comp ∈ pickedComponents f resolved := by
    unfold pickedComponents
    refine List.mem_flatMap.mpr ⟨rc, hrc, ?_⟩
    rw [pickedOf, if_pos hpass]
    simp
  refine ⟨resolveWithFilter_eq f resolved s acc, hmem, ?_⟩
  rw [resolveWithFilter_eq f resolved s acc]
  exact addAllSources_has_mem _ _ _ hmem

/-- C3 witness: a concrete instance of `c3_filtered_resolution` — a
wildcard for `CustomObject` admits a resolved `CustomObject`
component. -/
theorem c3_witness :
    ((⟨⟨"Obj", tyParentObj, none, none⟩, none,
        [⟨"Obj.Field", tyChildField, none, none⟩]⟩ : ResolvedComponent) ∈
      [(⟨⟨"Obj", tyParentObj, none, none⟩, none,
        [⟨"Obj.Field", tyChildField, none, none⟩]⟩ : ResolvedComponent)]) ∧
    (buildSet regFix [ComponentLike.meta "*" tyParentObj]).has
      (wildcardOf tyParentObj) = true ∧
    (⟨"Obj", tyParentObj, none, none⟩ : SourceComponent) ∈
      pickedComponents (buildSet regFix [ComponentLike.meta "*" tyParentObj])
        [⟨⟨"Obj", tyParentObj, none, none⟩, none,
          [⟨"Obj.Field", tyChildField, none, none⟩]⟩] ∧
    (resolveWithFilter (buildSet regFix [ComponentLike.meta "*" tyParentObj])
        [⟨⟨"Obj", tyParentObj, none, none⟩, none,
          [⟨"Obj.Field", tyChildField, none, none⟩]⟩]
        (ComponentSet.empty regFix) (ComponentSet.empty regFix)).2.has
      (ComponentLike.source ⟨"Obj", tyParentObj, none, none⟩) = true := by
  have h := c3_filtered_resolution
    (buildSet regFix [ComponentLike.meta "*" tyParentObj])
    [⟨⟨"Obj", tyParentObj, none, none⟩, none,
      [⟨"Obj.Field", tyChildField, none, none⟩]⟩]
    (ComponentSet.empty regFix) (ComponentSet.empty regFix)
    ⟨⟨"Obj", tyParentObj, none, none⟩, none,
      [⟨"Obj.Field", tyChildField, none, none⟩]⟩
    (List.mem_singleton.mpr rfl) (by decide)
  exact ⟨List.mem_singleton.mpr rfl, by decide, h.2.1, h.2.2⟩

/-- C3 counterexample: the filter holds a wildcard for the child's type
`CustomField`; the resolved parent fails all three conditions, and its
child of type `CustomField` is still not added — children are tested
only for exact membership, so the claim's "same three conditions for
children" fails. -/
theorem c3_counterexample :
    (buildSet regFix [ComponentLike.meta "*" tyChildField]).has
      (wildcardOf tyChildField) = true ∧
    (resolveWithFilter (buildSet regFix [ComponentLike.meta "*" tyChildField])
        [⟨⟨"Obj", tyParentObj, none, none⟩, none,
          [⟨"Obj.Field", tyChildField, none, none⟩]⟩]
        (ComponentSet.empty regFix) (ComponentSet.empty regFix)).2.has
      (ComponentLike.source ⟨"Obj.Field", tyChildField, none, none⟩) = false ∧
    (resolveWithFilter (buildSet regFix [ComponentLike.meta "*" tyChildField])
        [⟨⟨"Obj", tyParentObj, none, none⟩, none,
          [⟨"Obj.Field", tyChildField, none, none⟩]⟩]
        (ComponentSet.empty regFix) (ComponentSet.empty regFix)).1.has
      (ComponentLike.source ⟨"Obj.Field", tyChildField, none, none⟩) = false := by
  refine ⟨by decide, by decide, by decide⟩

/-- C7 (confirmed): for a content path containing the type's
directory-name segment, `findXmlFromContentPath` trims the path to that
segment plus a fixed offset (2 segments, 3 when the type is
folder-scoped) and returns the descriptor found in the trimmed root's
parent directory for the root's base name — the claim-side restatement
`findXmlFromContentPathSpec` agrees with the code. -/
theorem c7_find_xml_from_content_path (fs : List FSEntry) (p : String)
    (t : MetadataType) (h : t.directoryName ∈ splitPath p) :
    findXmlFromContentPath fs p t = findXmlFromContentPathSpec fs p t := by
  cases hidx : (splitPath p).findIdx? (fun part => part == t.directoryName) with
  | none =>
      exfalso
      have hall := List.findIdx?_eq_none_iff.mp hidx
      have := hall _ h
      simp at this
  | some i =>
      have harith : ((Int.ofNat i) + (if t.inFolder then (3 : Int) else 2)).toNat =
          i + (if t.inFolder then 3 else 2) := by
        cases t.inFolder <;> simp <;> omega
      simp only [findXmlFromContentPath, findXmlFromContentPathSpec, hidx,
        harith]

/-- C7 witness: a content path three levels under the folder-scoped
`reports` directory is trimmed past the folder-name segment and yields
the descriptor of the correct root content name. -/
theorem c7_witness :
    (tyReport.directoryName ∈ splitPath "pkg/reports/myfolder/rpt1/chart.png") ∧
    findXmlFromContentPath fsReports "pkg/reports/myfolder/rpt1/chart.png"
        tyReport =
      findXmlFromContentPathSpec fsReports
        "pkg/reports/myfolder/rpt1/chart.png" tyReport ∧
    findXmlFromContentPath fsReports "pkg/reports/myfolder/rpt1/chart.png"
        tyReport = some "pkg/reports/myfolder/rpt1.report-meta.xml" :=
  ⟨by decide,
   c7_find_xml_from_content_path fsReports
     "pkg/reports/myfolder/rpt1/chart.png" tyReport (by decide),
   by decide⟩

theorem contains_false_not_mem {l : List String} {a : String}
    (h : l.contains a = false) : ¬ a ∈ l := by
  intro hm
  rw [List.contains, List.elem_eq_mem, decide_eq_false_iff_not] at h
  exact h hm

theorem mixedContentLoop_eq_find (reg : Registry) (p : String)
    (ml : List (String × String))
    (hwf : ∀ e ∈ ml, (alistGet reg.types (normalizeTypeName e.2)).isSome = true) :
    mixedContentLoop reg p ml = Except.ok
      (match ml.find? (fun e => (splitPath p).contains e.1) with
       | some (dn, tid) =>
           (match alistGet reg.types (normalizeTypeName tid) with
            | some t =>
                if folderException t p dn then none else some tid
            | none => none)
       | none => none) := by
  induction ml with
  | nil => simp [mixedContentLoop]
  | cons e rest ih =>
      obtain ⟨dn, tid⟩ := e
      by_cases hc : (splitPath p).contains dn = true
      · obtain ⟨t, ht⟩ := Option.isSome_iff_exists.mp
          (hwf (dn, tid) (List.mem_cons_self _ _))
        rw [mixedContentLoop, if_pos (by simpa using hc)]
        rw [List.find?, hc]
        have hget : getTypeFromName reg tid = Except.ok t := by
          simp [getTypeFromName, ht]
        rw [hget, except_bind_ok]
        simp only [ht]
        by_cases hif : folderException t p dn = true
        · rw [if_pos hif, if_pos hif]
        · rw [if_neg hif, if_neg hif]
      · have hc' : (splitPath p).contains dn = false :=
          Bool.not_eq_true _ |>.mp hc
        rw [mixedContentLoop, if_neg (by rw [hc']; simp)]
        rw [List.find?, hc']
        exact ih (fun e he => hwf e (List.mem_cons_of_mem _ he))

/-- C5 (confirmed): `determineTypeId` equals its claim-side restatement
`determineTypeIdSpec` — mixed-content directory match first (with the
folder-scoped immediate-parent exception falling through), then the
descriptor's embedded suffix, then the raw extension, first match
winning — whenever every mixed-content entry's type id is registered. -/
theorem c5_determine_type_id (reg : Registry) (p : String)
    (hwf : ∀ e ∈ reg.mixedContent,
      (alistGet reg.types (normalizeTypeName e.2)).isSome = true) :
    determineTypeId reg p = Except.ok (determineTypeIdSpec reg p) := by
  unfold determineTypeId determineTypeIdSpec
  rw [mixedContentLoop_eq_find reg p reg.mixedContent hwf, except_bind_ok]
  cases hfind : reg.mixedContent.find? (fun e => (splitPath p).contains e.1) with
  | none =>
      simp only [hfind]
      cases hmx : parseMetadataXml p with
      | none => simp [hmx]
      | some mx =>
          cases hsf : alistGet reg.suffixes mx.suffix with
          | none => simp [hmx, hsf]
          | some tid => simp [hmx, hsf]
  | some e =>
      obtain ⟨dn, tid⟩ := e
      simp only [hfind]
      cases hty : alistGet reg.types (normalizeTypeName tid) with
      | none =>
          simp only []
          cases hmx : parseMetadataXml p with
          | none => simp [hmx]
          | some mx =>
              cases hsf : alistGet reg.suffixes mx.suffix with
              | none => simp [hmx, hsf]
              | some t2 => simp [hmx, hsf]
      | some t =>
          by_cases hif : folderException t p dn = true
          · simp only [hif, if_true]
            cases hmx : parseMetadataXml p with
            | none => simp [hmx]
            | some mx =>
                cases hsf : alistGet reg.suffixes mx.suffix with
                | none => simp [hmx, hsf]
                | some t2 => simp [hmx, hsf]
          · have hif' : folderException t p dn = false :=
              Bool.not_eq_true _ |>.mp hif
            simp [hif']

/-- C5 witness: a concrete instance of `c5_determine_type_id` — a file
inside `staticresources` resolves by the mixed-content strategy. -/
theorem c5_witness :
    (∀ e ∈ regFix.mixedContent,
      (alistGet regFix.types (normalizeTypeName e.2)).isSome = true) ∧
    determineTypeId regFix "pkg/staticresources/foo/bar.txt" =
      Except.ok (determineTypeIdSpec regFix "pkg/staticresources/foo/bar.txt") ∧
    determineTypeIdSpec regFix "pkg/staticresources/foo/bar.txt" =
      some "staticresource" :=
  ⟨by decide,
   c5_determine_type_id regFix "pkg/staticresources/foo/bar.txt" (by decide),
   by decide⟩

/-- C9 (code bug): over the tree container a missing path makes
`getComponentsFromPath` raise `error_path_not_found`, but the GitHub
container's `exists` dereferences `tree.get(dirname(path))` without a
guard, so on any path whose parent directory is not indexed — here, any
path of an empty remote tree — the existence gate crashes with a JS
`TypeError` instead of raising the path-not-found error. -/
theorem c9_path_not_found (reg : Registry) (fs : List FSEntry)
    (denies : String → Bool) (adapter : MetadataType → String → Option RComp)
    (p : String) (h : treeExists fs p = false) :
    getComponentsFromPath (treeCtx reg fs denies adapter) p =
      Except.error (Err.pathNotFound p) ∧
    resolverGate (ghExists ([] : GhTree)) "pkg/classes" =
      Except.error (Err.typeError "cannot read property has of undefined") := by
  constructor
  · have hgate : resolverGate
        (treeCtx reg fs denies adapter).containerExists p =
        Except.error (Err.pathNotFound p) := by
      simp only [resolverGate, treeCtx, h]
      rw [except_bind_ok]
      simp
    unfold getComponentsFromPath
    rw [hgate]
    rfl
  · rfl

/-- C9 witness: a concrete instance of `c9_path_not_found` at a path
missing from an empty virtual tree. -/
theorem c9_witness :
    treeExists [] "nowhere" = false ∧
    getComponentsFromPath (treeCtx regFix [] (fun _ => false) adapterFix)
        "nowhere" = Except.error (Err.pathNotFound "nowhere") ∧
    resolverGate (ghExists ([] : GhTree)) "pkg/classes" =
      Except.error (Err.typeError "cannot read property has of undefined") :=
  ⟨by decide,
   (c9_path_not_found regFix [] (fun _ => false) adapterFix "nowhere"
     (by decide)).1,
   (c9_path_not_found regFix [] (fun _ => false) adapterFix "nowhere"
     (by decide)).2⟩

theorem scanFiles_cons_dir (ctx : ResolverCtx) (dirPath n : String)
    (ch rest : List FSEntry) :
    scanDirectoryFiles ctx dirPath (FSEntry.dir n ch :: rest) =
      scanDirectoryFiles ctx dirPath rest := by
  rw [scanDirectoryFiles]

theorem scanFiles_cons_file_noparse (ctx : ResolverCtx)
    (dirPath name : String) (rest : List FSEntry)
    (hp : ¬ (parseMetadataXml (joinP dirPath name)).isSome = true) :
    scanDirectoryFiles ctx dirPath (FSEntry.file name :: rest) =
      scanDirectoryFiles ctx dirPath rest := by
  rw [scanDirectoryFiles, if_neg hp]

theorem scanFiles_cons_file_err (ctx : ResolverCtx) (dirPath name : String)
    (rest : List FSEntry) (e : Err)
    (hp : (parseMetadataXml (joinP dirPath name)).isSome = true)
    (hf : fetchComponent ctx (joinP dirPath name) = Except.error e) :
    scanDirectoryFiles ctx dirPath (FSEntry.file name :: rest) =
      Except.error e := by
  rw [scanDirectoryFiles, if_pos hp, hf, except_bind_error]

theorem scanFiles_cons_file_none (ctx : ResolverCtx) (dirPath name : String)
    (rest : List FSEntry)
    (hp : (parseMetadataXml (joinP dirPath name)).isSome = true)
    (hf : fetchComponent ctx (joinP dirPath name) = Except.ok none) :
    scanDirectoryFiles ctx dirPath (FSEntry.file name :: rest) =
      scanDirectoryFiles ctx dirPath rest := by
  rw [scanDirectoryFiles, if_pos hp, hf, except_bind_ok]

theorem scanFiles_cons_file_some (ctx : ResolverCtx) (dirPath name : String)
    (rest : List FSEntry) (c : RComp)
    (hp : (parseMetadataXml (joinP dirPath name)).isSome = true)
    (hf : fetchComponent ctx (joinP dirPath name) = Except.ok (some c)) :
    scanDirectoryFiles ctx dirPath (FSEntry.file name :: rest) =
      (if stopsScan ctx.reg c (joinP dirPath name) = true then
        Except.ok ([c], true)
      else do
        let pr ← scanDirectoryFiles ctx dirPath rest
        (match pr with
         | (cs, stopped) => Except.ok (c :: cs, stopped))) := by
  rw [scanDirectoryFiles, if_pos hp, hf, except_bind_ok]

theorem scanFiles_append (ctx : ResolverCtx) (dirPath : String)
    (pre rest : List FSEntry) (cs2 : List RComp) (b : Bool)
    (h2 : scanDirectoryFiles ctx dirPath rest = Except.ok (cs2, b)) :
    ∀ comps, scanDirectoryFiles ctx dirPath pre = Except.ok (comps, false) →
    scanDirectoryFiles ctx dirPath (pre ++ rest) =
      Except.ok (comps ++ cs2, b) := by
  induction pre with
  | nil =>
      intro comps h1
      rw [scanDirectoryFiles] at h1
      have hnil : ([] : List RComp) = comps :=
        ((Prod.mk.injEq _ _ _ _).mp ((Except.ok.injEq _ _).mp h1)).1
      subst hnil
      simpa using h2
  | cons e pre' ih =>
      intro comps h1
      cases e with
      | dir n ch =>
          rw [scanFiles_cons_dir] at h1
          rw [List.cons_append, scanFiles_cons_dir]
          exact ih comps h1
      | file name =>
          rw [List.cons_append]
          by_cases hp : (parseMetadataXml (joinP dirPath name)).isSome = true
          · cases hf : fetchComponent ctx (joinP dirPath name) with
            | error e =>
                rw [scanFiles_cons_file_err ctx dirPath name pre' e hp hf] at h1
                exact absurd h1 (by simp)
            | ok r =>
                cases r with
                | none =>
                    rw [scanFiles_cons_file_none ctx dirPath name pre' hp hf] at h1
                    rw [scanFiles_cons_file_none ctx dirPath name
                      (pre' ++ rest) hp hf]
                    exact ih comps h1
                | some c =>
                    rw [scanFiles_cons_file_some ctx dirPath name pre' c hp hf] at h1
                    rw [scanFiles_cons_file_some ctx dirPath name
                      (pre' ++ rest) c hp hf]
                    by_cases hs : stopsScan ctx.reg c (joinP dirPath name) = true
                    · rw [if_pos hs] at h1
                      exact absurd ((Prod.mk.injEq _ _ _ _).mp
                        ((Except.ok.injEq _ _).mp h1)).2 (by simp)
                    · rw [if_neg hs] at h1
                      rw [if_neg hs]
                      cases hpre' : scanDirectoryFiles ctx dirPath pre' with
                      | error e =>
                          rw [hpre', except_bind_error] at h1
                          exact absurd h1 (by simp)
                      | ok pr =>
                          obtain ⟨cs', st'⟩ := pr
                          rw [hpre', except_bind_ok] at h1
                          have hinj := (Prod.mk.injEq _ _ _ _).mp
                            ((Except.ok.injEq _ _).mp h1)
                          have hcs : c :: cs' = comps := hinj.1
                          have hst : st' = false := hinj.2
                          subst hst
                          rw [ih cs' hpre', except_bind_ok]
                          rw [← hcs]
                          simp
          · rw [scanFiles_cons_file_noparse ctx dirPath name pre' hp] at h1
            rw [scanFiles_cons_file_noparse ctx dirPath name (pre' ++ rest) hp]
            exact ih comps h1

theorem scanFiles_head_stop (ctx : ResolverCtx) (dirPath name : String)
    (post : List FSEntry) (c : RComp)
    (hparse : (parseMetadataXml (joinP dirPath name)).isSome = true)
    (hfetch : fetchComponent ctx (joinP dirPath name) = Except.ok (some c))
    (hstop : stopsScan ctx.reg c (joinP dirPath name) = true) :
    scanDirectoryFiles ctx dirPath (FSEntry.file name :: post) =
      Except.ok ([c], true) := by
  rw [scanFiles_cons_file_some ctx dirPath name post c hparse hfetch,
    if_pos hstop]

/-- C4 (confirmed): during the recursive directory walk, when a
descriptor file resolves to a component whose type directory is
registered as mixed content and the scanned directory (one level higher
for folder-scoped types) is not the type's own directory, scanning stops
at once: the walk returns exactly the components collected before plus
that component — later sibling files and every queued subdirectory of
the directory contribute nothing. -/
theorem c4_mixed_content_early_termination (ctx : ResolverCtx)
    (dirPath name : String) (pre post : List FSEntry)
    (comps : List RComp) (c : RComp)
    (hdeny : ctx.denies dirPath = false)
    (hpre : scanDirectoryFiles ctx dirPath pre = Except.ok (comps, false))
    (hparse : (parseMetadataXml (joinP dirPath name)).isSome = true)
    (hfetch : fetchComponent ctx (joinP dirPath name) = Except.ok (some c))
    (hstop : stopsScan ctx.reg c (joinP dirPath name) = true) :
    getComponentsFromPathRecursive ctx dirPath
      (pre ++ FSEntry.file name :: post) = Except.ok (comps ++ [c]) := by
  have hall : scanDirectoryFiles ctx dirPath (pre ++ FSEntry.file name :: post) =
      Except.ok (comps ++ [c], true) := by
    have hhead := scanFiles_head_stop ctx dirPath name post c hparse hfetch hstop
    exact scanFiles_append ctx dirPath pre _ [c] true hhead comps hpre
  rw [getComponentsFromPathRecursive, if_neg (by rw [hdeny]; simp)]
  rw [hall, except_bind_ok]
  simp

/-- C4 witness: scanning `pkg/staticresources/foo` (inside the
mixed-content subtree, not the type root) stops at the first descriptor
`a.resource-meta.xml`; the sibling descriptor `b.resource-meta.xml` and
the queued subdirectory `sub` (holding `c.resource-meta.xml`) contribute
nothing. -/
theorem c4_witness :
    scanDirectoryFiles ctxMixScan "pkg/staticresources/foo" [] =
      Except.ok ([], false) ∧
    fetchComponent ctxMixScan "pkg/staticresources/foo/a.resource-meta.xml" =
      Except.ok (some ⟨"a", tyStaticResource⟩) ∧
    stopsScan ctxMixScan.reg ⟨"a", tyStaticResource⟩
      "pkg/staticresources/foo/a.resource-meta.xml" = true ∧
    getComponentsFromPathRecursive ctxMixScan "pkg/staticresources/foo"
      ([] ++ FSEntry.file "a.resource-meta.xml" ::
        [FSEntry.file "b.resource-meta.xml",
         FSEntry.dir "sub" [FSEntry.file "c.resource-meta.xml"]]) =
      Except.ok ([] ++ [⟨"a", tyStaticResource⟩]) :=
  ⟨by decide, by decide, by decide,
   c4_mixed_content_early_termination ctxMixScan "pkg/staticresources/foo"
     "a.resource-meta.xml" []
     [FSEntry.file "b.resource-meta.xml",
      FSEntry.dir "sub" [FSEntry.file "c.resource-meta.xml"]]
     [] ⟨"a", tyStaticResource⟩
     (by decide) (by decide) (by decide) (by decide) (by decide)⟩

/-- C8 (amended): a denied metadata descriptor file resolves to an empty
result with no error, and so does a denied directory whose resolution
stays on the directory itself (the recursive-walk case).  A denied
directory that is redirected to a mixed-content root descriptor is
governed by the descriptor's own denial status instead, and can resolve
to a component (see the counterexample). -/
theorem c8_denied_paths (reg : Registry) (fs : List FSEntry)
    (denies : String → Bool)
    (adapter : MetadataType → String → Option RComp) (p : String) :
    (treeExists fs p = true → treeIsDir fs p = false →
      (parseMetadataXml p).isSome = true → denies p = true →
      getComponentsFromPath (treeCtx reg fs denies adapter) p =
        Except.ok []) ∧
    (treeExists fs p = true → treeIsDir fs p = true →
      dirPathForFetch (treeCtx reg fs denies adapter) p = Except.ok p →
      denies p = true →
      getComponentsFromPath (treeCtx reg fs denies adapter) p =
        Except.ok []) := by
  have hgate : treeExists fs p = true →
      resolverGate (treeCtx reg fs denies adapter).containerExists p =
        Except.ok () := by
    intro hex
    simp only [resolverGate, treeCtx, hex]
    rw [except_bind_ok]
    simp
  constructor
  · intro hex hdir hparse hden
    unfold getComponentsFromPath
    rw [hgate hex, except_bind_ok]
    have hdir' : treeIsDir (treeCtx reg fs denies adapter).fs p = false := hdir
    rw [if_neg (by rw [hdir']; simp)]
    have hfc : fetchComponent (treeCtx reg fs denies adapter) p =
        Except.ok none := by
      unfold fetchComponent
      rw [if_pos (by simp [treeCtx, hparse, hden])]
    rw [hfc, except_bind_ok]
  · intro hex hdir hfetchpath hden
    unfold getComponentsFromPath
    rw [hgate hex, except_bind_ok]
    have hdir' : treeIsDir (treeCtx reg fs denies adapter).fs p = true := hdir
    rw [if_pos (by rw [hdir'])]
    rw [hfetchpath, except_bind_ok]
    rw [if_pos (by simp)]
    rw [getComponentsFromPathRecursive, if_pos (by show denies p = true; exact hden)]

/-- C8 witness: concrete instances of `c8_denied_paths` — a denied
descriptor file and a denied plain directory both yield an empty result
without an error. -/
theorem c8_witness :
    ctxDenyXml.denies "pkg/staticresources/foo.resource-meta.xml" = true ∧
    getComponentsFromPath ctxDenyXml
      "pkg/staticresources/foo.resource-meta.xml" = Except.ok [] ∧
    ctxDenyPkg.denies "pkg" = true ∧
    getComponentsFromPath ctxDenyPkg "pkg" = Except.ok [] :=
  ⟨by decide,
   (c8_denied_paths regFix fsStatic
     (fun q => q == "pkg/staticresources/foo.resource-meta.xml") adapterFix
     "pkg/staticresources/foo.resource-meta.xml").1
     (by decide) (by decide) (by decide) (by decide),
   by decide,
   (c8_denied_paths regFix fsStatic (fun q => q == "pkg") adapterFix
     "pkg").2 (by decide) (by decide) (by decide) (by decide)⟩

/-- C8 counterexample: the directory `pkg/staticresources/foo/sub` is
denied by the bound ForceIgnore, yet `getComponentsFromPath` redirects
it to the undenied root descriptor `pkg/staticresources/foo.resource-meta.xml`
and returns that component — a denied directory does not always yield an
empty result. -/
theorem c8_counterexample :
    ctxDenySub.denies "pkg/staticresources/foo/sub" = true ∧
    getComponentsFromPath ctxDenySub "pkg/staticresources/foo/sub" =
      Except.ok [⟨"foo", tyStaticResource⟩] := by
  refine ⟨by decide, by decide⟩

theorem except_bind_pure {ε α β : Type} (a : α) (f : α → Except ε β) :
    (do let x ← (pure a : Except ε α); f x : Except ε β) = f a := rfl

theorem blockOKb_spec (reg : Registry) (tb : PackageTypeMembers)
    (h : blockOKb reg tb = true) :
    tb.members ≠ [] ∧
    (∀ mem ∈ tb.members, strHasChar mem '#' = false) ∧
    ∃ t, alistGet reg.types (normalizeTypeName tb.name) = some t ∧
      t.name = tb.name ∧ t.folderContentType = none ∧
      alistGet reg.types (normalizeTypeName t.id) = some t ∧
      strHasChar t.id '#' = false ∧
      (∀ ft, t.folderType = some ft → ∃ tf,
        alistGet reg.types (normalizeTypeName ft) = some tf ∧
        tf.folderContentType = some t.id ∧
        alistGet reg.types (normalizeTypeName tf.id) = some tf ∧
        strHasChar tf.id '#' = false) := by
  unfold blockOKb at h
  cases hty : alistGet reg.types (normalizeTypeName tb.name) with
  | none =>
      rw [hty] at h
      simp at h
  | some t =>
      rw [hty, Option.map_some', Option.getD_some] at h
      rw [Bool.and_eq_true, Bool.and_eq_true] at h
      obtain ⟨⟨hne, hall⟩, hrest⟩ := h
      refine ⟨?_, ?_, t, rfl, ?_⟩
      · intro hnil
        rw [hnil] at hne
        simp at hne
      · intro mem hmem
        have := List.all_eq_true.mp hall mem hmem
        simpa using this
      · rw [Bool.and_eq_true, Bool.and_eq_true, Bool.and_eq_true,
          Bool.and_eq_true] at hrest
        obtain ⟨⟨⟨⟨hname, hfct⟩, hself⟩, hid⟩, hfold⟩ := hrest
        refine ⟨by simpa using hname, by simpa using hfct,
          by simpa [typeSelfKeyed] using hself, by simpa using hid, ?_⟩
        intro ft hft
        unfold folderLinkOK at hfold
        rw [hft] at hfold
        replace hfold : ((alistGet reg.types (normalizeTypeName ft)).map
            (fun tf => tf.folderContentType == some t.id &&
              typeSelfKeyed reg tf && !strHasChar tf.id '#')).getD false =
            true := hfold
        cases htf : alistGet reg.types (normalizeTypeName ft) with
        | none =>
            rw [htf] at hfold
            simp at hfold
        | some tf =>
            rw [htf, Option.map_some', Option.getD_some] at hfold
            rw [Bool.and_eq_true, Bool.and_eq_true] at hfold
            obtain ⟨⟨htfct, htfself⟩, htfid⟩ := hfold
            exact ⟨tf, rfl, by simpa using htfct,
              by simpa [typeSelfKeyed] using htfself,
              by simpa using htfid⟩

theorem parseMembersGo_ok (reg : Registry) (name : String)
    (t : MetadataType)
    (ht : alistGet reg.types (normalizeTypeName name) = some t)
    (hft : ∀ ft, t.folderType = some ft →
      (alistGet reg.types (normalizeTypeName ft)).isSome = true)
    (members : List String) :
    parseMembersGo reg name members =
      Except.ok (members.map
        (fun mem => ComponentLike.meta mem (memberType reg t mem))) := by
  induction members with
  | nil => rw [parseMembersGo]; rfl
  | cons mem ms ih =>
      rw [parseMembersGo]
      have hget : getTypeFromName reg name = Except.ok t := by
        simp [getTypeFromName, ht]
      rw [hget, except_bind_ok]
      by_cases hcond : (t.folderType.isSome && !strHasChar mem '/') = true
      · have hcond' := hcond
        rw [Bool.and_eq_true] at hcond'
        obtain ⟨hsome, hslash⟩ := hcond'
        obtain ⟨ft, hfe⟩ := Option.isSome_iff_exists.mp hsome
        obtain ⟨tf, htf⟩ := Option.isSome_iff_exists.mp (hft ft hfe)
        have hgetft : getTypeFromName reg (t.folderType.getD "") =
            Except.ok tf := by
          rw [hfe, Option.getD_some]
          simp [getTypeFromName, htf]
        rw [if_pos hcond, hgetft, except_bind_ok, ih, except_bind_ok]
        have hstep : memberType reg t mem =
            (if strHasChar mem '/' then t
             else (alistGet reg.types (normalizeTypeName ft)).getD t) := by
          unfold memberType
          rw [hfe]
        have hslash' : ¬ strHasChar mem '/' = true := by
          simp at hslash
          simp [hslash]
        have hmt : memberType reg t mem = tf := by
          rw [hstep, if_neg hslash', htf, Option.getD_some]
        rw [List.map_cons, hmt]
      · have hb : (t.folderType.isSome && !strHasChar mem '/') = false :=
          Bool.not_eq_true _ |>.mp hcond
        rw [if_neg hcond, except_bind_ok, ih, except_bind_ok]
        have hmt : memberType reg t mem = t := by
          cases hfe : t.folderType with
          | none =>
              unfold memberType
              rw [hfe]
          | some ft =>
              have hstep : memberType reg t mem =
                  (if strHasChar mem '/' then t
                   else (alistGet reg.types (normalizeTypeName ft)).getD t) := by
                unfold memberType
                rw [hfe]
              rw [hfe] at hb
              simp only [Option.isSome_some, Bool.true_and] at hb
              have hsl : strHasChar mem '/' = true := by simpa using hb
              rw [hstep, if_pos hsl]
        rw [List.map_cons, hmt]

theorem parseBlocksGo_ok (reg : Registry) (blocks : List PackageTypeMembers)
    (h : ∀ tb ∈ blocks, blockOKb reg tb = true) :
    parseBlocksGo reg blocks = Except.ok
      (blocks.flatMap (fun tb => tb.members.map
        (fun mem => ComponentLike.meta mem
          (memberType reg (blockTypeOf reg tb) mem)))) := by
  induction blocks with
  | nil => rw [parseBlocksGo]; rfl
  | cons tb rest ih =>
      obtain ⟨-, -, t, ht, -, -, -, -, hfold⟩ :=
        blockOKb_spec reg tb (h tb (List.mem_cons_self _ _))
      have hbt : blockTypeOf reg tb = t := by
        simp [blockTypeOf, ht]
      have hmem : parseMembersGo reg tb.name tb.members =
          Except.ok (tb.members.map (fun mem =>
            ComponentLike.meta mem (memberType reg t mem))) := by
        refine parseMembersGo_ok reg tb.name t ht ?_ tb.members
        intro ft hftq
        obtain ⟨tf, htf, -, -, -⟩ := hfold ft hftq
        rw [htf]
        rfl
      rw [parseBlocksGo, hmem, except_bind_ok,
        ih (fun b hb => h b (List.mem_cons_of_mem _ hb)), except_bind_ok]
      rw [List.flatMap_cons, hbt]

theorem manifest_parse_ok (reg : Registry) (m : PackageManifestObject)
    (h : ∀ tb ∈ m.types, blockOKb reg tb = true) :
    getComponentsFromManifestObject reg m =
      Except.ok (manifestComponents reg m) := by
  unfold getComponentsFromManifestObject manifestComponents
  exact parseBlocksGo_ok reg m.types h

theorem manifestKeys_eq (reg : Registry) (m : PackageManifestObject)
    (h : ∀ tb ∈ m.types, blockOKb reg tb = true) :
    manifestKeys reg m = (manifestComponents reg m).map simpleKey := by
  unfold manifestKeys
  rw [manifest_parse_ok reg m h]

theorem sourcesWithKey_of_all_meta (cs : List ComponentLike) (k : String)
    (hmeta : ∀ c ∈ cs, ∃ fn t, c = ComponentLike.meta fn t) :
    sourcesWithKey cs k = [] := by
  induction cs with
  | nil => rfl
  | cons c rest ih =>
      obtain ⟨fn, t, hc⟩ := hmeta c (List.mem_cons_self _ _)
      subst hc
      simpa [sourcesWithKey, List.filterMap_cons] using
        ih (fun c hc => hmeta c (List.mem_cons_of_mem _ hc))

theorem buildSet_all_meta (reg : Registry) (cs : List ComponentLike)
    (hmeta : ∀ c ∈ cs, ∃ fn t, c = ComponentLike.meta fn t)
    (hnd : (cs.map simpleKey).Nodup) :
    (buildSet reg cs).components = cs.map (fun c => (simpleKey c, [])) := by
  rw [buildSet_components]
  unfold groupedModel
  rw [keysOf, dedupFirst_eq_self hnd, List.map_map]
  refine List.map_congr_left ?_
  intro c hc
  have hsw : sourcesWithKey cs (simpleKey c) = [] :=
    sourcesWithKey_of_all_meta cs _ hmeta
  simp [Function.comp, hsw, innerModel]

theorem manifestComponents_all_meta (reg : Registry)
    (m : PackageManifestObject) :
    ∀ c ∈ manifestComponents reg m, ∃ fn t, c = ComponentLike.meta fn t := by
  intro c hc
  unfold manifestComponents at hc
  obtain ⟨tb, -, hc2⟩ := List.mem_flatMap.mp hc
  obtain ⟨mem, -, hc3⟩ := List.mem_map.mp hc2
  exact ⟨mem, _, hc3.symm⟩

theorem getObjectGo_step (reg : Registry) (tm : List (String × List String))
    (bname mem : String) (ty : MetadataType)
    (hid : strHasChar ty.id '#' = false)
    (hmem : strHasChar mem '#' = false)
    (hself : alistGet reg.types (normalizeTypeName ty.id) = some ty)
    (hname : (ty.folderContentType = none ∧ ty.name = bname) ∨
      (∃ fct tc, ty.folderContentType = some fct ∧
        alistGet reg.types (normalizeTypeName fct) = some tc ∧
        tc.name = bname))
    (rest : List (String × List (String × SourceComponent))) :
    getObjectGo reg
      ((simpleKey (ComponentLike.meta mem ty), []) :: rest) tm =
      getObjectGo reg rest
        (alistSet tm bname ((alistGet tm bname).getD [] ++ [mem])) := by
  have hsplit : splitC '#' (simpleKey (ComponentLike.meta mem ty)) =
      [ty.id, mem] := by
    have : simpleKey (ComponentLike.meta mem ty) = ty.id ++ "#" ++ mem := rfl
    rw [this]
    refine splitC_concat_key _ _ ?_ ?_
    · exact strHasChar_not_mem (by simp [hid])
    · exact strHasChar_not_mem (by simp [hmem])
  have hkt : keyTypeName (simpleKey (ComponentLike.meta mem ty)) = ty.id := by
    rw [keyTypeName, hsplit]; rfl
  have hkf : keyFullName (simpleKey (ComponentLike.meta mem ty)) = mem := by
    rw [keyFullName, hsplit]; rfl
  have hget : getTypeFromName reg
      (keyTypeName (simpleKey (ComponentLike.meta mem ty))) =
      Except.ok ty := by
    rw [hkt]
    simp [getTypeFromName, hself]
  rw [getObjectGo, hget, except_bind_ok]
  rcases hname with ⟨hfct, hn⟩ | ⟨fct, tc, hfct, htcl, htcn⟩
  · rw [if_neg (by rw [hfct]; simp), except_bind_ok, hn, hkf]
  · have hisome : ty.folderContentType.isSome = true := by rw [hfct]; rfl
    have hgettc : getTypeFromName reg (ty.folderContentType.getD "") =
        Except.ok tc := by
      rw [hfct, Option.getD_some]
      simp [getTypeFromName, htcl]
    rw [if_pos hisome, hgettc, except_bind_ok, htcn, hkf]

theorem getObjectGo_members (reg : Registry) (bname : String)
    (tyOf : String → MetadataType) (tms : List String)
    (hfacts : ∀ mem ∈ tms,
      strHasChar (tyOf mem).id '#' = false ∧ strHasChar mem '#' = false ∧
      alistGet reg.types (normalizeTypeName (tyOf mem).id) =
        some (tyOf mem) ∧
      (((tyOf mem).folderContentType = none ∧ (tyOf mem).name = bname) ∨
       (∃ fct tc, (tyOf mem).folderContentType = some fct ∧
         alistGet reg.types (normalizeTypeName fct) = some tc ∧
         tc.name = bname)))
    (rest : List (String × List (String × SourceComponent)))
    (tm0 : List (String × List String))
    (hnot : ¬ bname ∈ tm0.map Prod.fst) :
    ∀ acc, getObjectGo reg
      ((tms.map (fun mem =>
        (simpleKey (ComponentLike.meta mem (tyOf mem)), []))) ++ rest)
      (tm0 ++ [(bname, acc)]) =
      getObjectGo reg rest (tm0 ++ [(bname, acc ++ tms)]) := by
  induction tms with
  | nil => intro acc; simp
  | cons mem tms' ihm =>
      intro acc
      obtain ⟨h1, h2, h3, h4⟩ := hfacts mem (List.mem_cons_self _ _)
      rw [List.map_cons, List.cons_append,
        getObjectGo_step reg _ bname mem (tyOf mem) h1 h2 h3 h4]
      have hgetacc : alistGet (tm0 ++ [(bname, acc)]) bname = some acc := by
        rw [alistGet_append_right _ _ _ hnot]
        simp [alistGet]
      have hsetacc : alistSet (tm0 ++ [(bname, acc)]) bname (acc ++ [mem]) =
          tm0 ++ [(bname, acc ++ [mem])] := by
        rw [alistSet_append_right _ _ _ _ hnot]
        simp [alistSet]
      rw [hgetacc, Option.getD_some, hsetacc,
        ihm (fun m hm => hfacts m (List.mem_cons_of_mem _ hm)) (acc ++ [mem])]
      simp

theorem getObjectGo_block (reg : Registry) (bname : String)
    (tyOf : String → MetadataType) (tms : List String) (hne : tms ≠ [])
    (hfacts : ∀ mem ∈ tms,
      strHasChar (tyOf mem).id '#' = false ∧ strHasChar mem '#' = false ∧
      alistGet reg.types (normalizeTypeName (tyOf mem).id) =
        some (tyOf mem) ∧
      (((tyOf mem).folderContentType = none ∧ (tyOf mem).name = bname) ∨
       (∃ fct tc, (tyOf mem).folderContentType = some fct ∧
         alistGet reg.types (normalizeTypeName fct) = some tc ∧
         tc.name = bname)))
    (rest : List (String × List (String × SourceComponent)))
    (tm0 : List (String × List String))
    (hnot : ¬ bname ∈ tm0.map Prod.fst) :
    getObjectGo reg
      ((tms.map (fun mem =>
        (simpleKey (ComponentLike.meta mem (tyOf mem)), []))) ++ rest) tm0 =
      getObjectGo reg rest (tm0 ++ [(bname, tms)]) := by
  cases tms with
  | nil => exact absurd rfl hne
  | cons mem ms =>
      obtain ⟨h1, h2, h3, h4⟩ := hfacts mem (List.mem_cons_self _ _)
      rw [List.map_cons, List.cons_append,
        getObjectGo_step reg _ bname mem (tyOf mem) h1 h2 h3 h4]
      have hgetnone : alistGet tm0 bname = none := by
        rcases hg : alistGet tm0 bname with _ | v
        · rfl
        · exact absurd (alistGet_some_mem_fst hg) hnot
      have hsetnew : alistSet tm0 bname [mem] = tm0 ++ [(bname, [mem])] := by
        have := alistSet_append_right tm0 [] bname [mem] hnot
        simpa [alistSet] using this
      rw [hgetnone]
      show getObjectGo reg _ (alistSet tm0 bname ([] ++ [mem])) = _
      rw [List.nil_append, hsetnew,
        getObjectGo_members reg bname tyOf ms
          (fun m hm => hfacts m (List.mem_cons_of_mem _ hm)) rest tm0 hnot
          [mem]]
      rfl

theorem memberType_emission (reg : Registry) (bname : String)
    (t : MetadataType) (htname : t.name = bname)
    (hfct : t.folderContentType = none)
    (hself : alistGet reg.types (normalizeTypeName t.id) = some t)
    (hid : strHasChar t.id '#' = false)
    (hfold : ∀ ft, t.folderType = some ft → ∃ tf,
      alistGet reg.types (normalizeTypeName ft) = some tf ∧
      tf.folderContentType = some t.id ∧
      alistGet reg.types (normalizeTypeName tf.id) = some tf ∧
      strHasChar tf.id '#' = false) (mem : String) :
    strHasChar (memberType reg t mem).id '#' = false ∧
    alistGet reg.types (normalizeTypeName (memberType reg t mem).id) =
      some (memberType reg t mem) ∧
    (((memberType reg t mem).folderContentType = none ∧
      (memberType reg t mem).name = bname) ∨
     (∃ fct tc, (memberType reg t mem).folderContentType = some fct ∧
       alistGet reg.types (normalizeTypeName fct) = some tc ∧
       tc.name = bname)) := by
  cases hfe : t.folderType with
  | none =>
      have hmt : memberType reg t mem = t := by
        unfold memberType
        rw [hfe]
      rw [hmt]
      exact ⟨hid, hself, Or.inl ⟨hfct, htname⟩⟩
  | some ft =>
      have hstep : memberType reg t mem =
          (if strHasChar mem '/' then t
           else (alistGet reg.types (normalizeTypeName ft)).getD t) := by
        unfold memberType
        rw [hfe]
      by_cases hslash : strHasChar mem '/' = true
      · have hmt : memberType reg t mem = t := by rw [hstep, if_pos hslash]
        rw [hmt]
        exact ⟨hid, hself, Or.inl ⟨hfct, htname⟩⟩
      · obtain ⟨tf, htf, htfct, htfself, htfid⟩ := hfold ft hfe
        have hmt : memberType reg t mem = tf := by
          rw [hstep, if_neg hslash, htf, Option.getD_some]
        rw [hmt]
        exact ⟨htfid, htfself, Or.inr ⟨t.id, t, htfct, hself, htname⟩⟩

theorem getObjectGo_blocks (reg : Registry)
    (blocks : List PackageTypeMembers)
    (hok : ∀ tb ∈ blocks, blockOKb reg tb = true)
    (hnames : (blocks.map PackageTypeMembers.name).Nodup) :
    ∀ tm0 : List (String × List String),
      (∀ tb ∈ blocks, ¬ tb.name ∈ tm0.map Prod.fst) →
      getObjectGo reg
        (blocks.flatMap (fun tb => tb.members.map (fun mem =>
          (simpleKey (ComponentLike.meta mem
            (memberType reg (blockTypeOf reg tb) mem)), [])))) tm0 =
        Except.ok (tm0 ++ blocks.map (fun tb => (tb.name, tb.members))) := by
  induction blocks with
  | nil =>
      intro tm0 _
      rw [List.flatMap_nil, getObjectGo]
      simp
  | cons tb bs ih =>
      intro tm0 hdisj
      obtain ⟨hne, hmems, t, ht, htname, hfct, hself, hid, hfold⟩ :=
        blockOKb_spec reg tb (hok tb (List.mem_cons_self _ _))
      have hbt : blockTypeOf reg tb = t := by simp [blockTypeOf, ht]
      rw [List.flatMap_cons, hbt]
      rw [getObjectGo_block reg tb.name (fun mem => memberType reg t mem)
        tb.members hne
        (fun mem hm => by
          refine ⟨?_, ?_, ?_, ?_⟩
          · exact (memberType_emission reg tb.name t htname hfct hself hid
              hfold mem).1
          · exact hmems mem hm
          · exact (memberType_emission reg tb.name t htname hfct hself hid
              hfold mem).2.1
          · exact (memberType_emission reg tb.name t htname hfct hself hid
              hfold mem).2.2)
        _ tm0 (hdisj tb (List.mem_cons_self _ _))]
      rw [List.map_cons, List.nodup_cons] at hnames
      rw [ih (fun b hb => hok b (List.mem_cons_of_mem _ hb)) hnames.2
        (tm0 ++ [(tb.name, tb.members)])
        (fun b hb => by
          rw [List.map_append, List.mem_append]
          rintro (hin | hin)
          · exact hdisj b (List.mem_cons_of_mem _ hb) hin
          · simp only [List.map_cons, List.map_nil, List.mem_singleton] at hin
            exact hnames.1 (hin ▸ List.mem_map_of_mem PackageTypeMembers.name hb))]
      rw [List.map_cons]
      simp

/-- C6 (amended): the manifest round trip reproduces `getObject`'s
groupings exactly — same type blocks, member order, type order, and
version — provided the manifest is canonical: every block satisfies
`blockOKb` (nonempty, delimiter-free members; a self-keyed registry type
of the same name with no pending folder substitution and a coherent
folder link), the parsed outer keys are pairwise distinct, and block
names are pairwise distinct.  Without the distinctness condition a
folder and its content type sharing a member name collapse (see the
counterexample). -/
theorem c6_manifest_round_trip (reg : Registry) (s : ComponentSet)
    (m : PackageManifestObject)
    (hobj : s.getObject reg = Except.ok m)
    (hblocks : ∀ tb ∈ m.types, blockOKb reg tb = true)
    (hkeys : (manifestKeys reg m).Nodup)
    (hnames : (m.types.map PackageTypeMembers.name).Nodup) :
    manifestRoundTrip reg s = Except.ok m := by
  unfold manifestRoundTrip
  rw [hobj, except_bind_ok, manifest_parse_ok reg m hblocks, except_bind_ok]
  show ComponentSet.getObject reg
    { buildSet reg (manifestComponents reg m) with apiVersion := m.version } =
    Except.ok m
  have hnd : ((manifestComponents reg m).map simpleKey).Nodup := by
    rw [← manifestKeys_eq reg m hblocks]
    exact hkeys
  have hupdc : ({ buildSet reg (manifestComponents reg m) with
      apiVersion := m.version } : ComponentSet).components =
      (buildSet reg (manifestComponents reg m)).components := rfl
  have hupdv : ({ buildSet reg (manifestComponents reg m) with
      apiVersion := m.version } : ComponentSet).apiVersion = m.version := rfl
  unfold ComponentSet.getObject
  rw [hupdc, hupdv,
    buildSet_all_meta reg _ (manifestComponents_all_meta reg m) hnd]
  have hentries : (manifestComponents reg m).map
      (fun c => (simpleKey c, ([] : List (String × SourceComponent)))) =
      m.types.flatMap (fun tb => tb.members.map (fun mem =>
        (simpleKey (ComponentLike.meta mem
          (memberType reg (blockTypeOf reg tb) mem)), []))) := by
    unfold manifestComponents
    rw [List.map_flatMap]
    refine List.flatMap_congr ?_
    intro tb _
    rw [List.map_map]
    rfl
  rw [hentries]
  rw [getObjectGo_blocks reg m.types hblocks hnames [] (by simp),
    except_bind_ok]
  rw [List.nil_append, List.map_map]
  have heta : (m.types.map ((fun e => PackageTypeMembers.mk e.1 e.2) ∘
      (fun tb => (tb.name, tb.members)))) = m.types := by
    refine List.map_congr_left ?_ |>.trans (List.map_id _)
    intro tb _
    rfl
  rw [heta]

/-- C6 witness: a concrete instance of `c6_manifest_round_trip` — the
set `{(ApexClass, Foo), (ApexClass, Bar)}` serializes to one type block
with members in insertion order, and the round trip reproduces it
exactly. -/
theorem c6_witness :
    ComponentSet.getObject regFix (buildSet regFix
        [ComponentLike.meta "Foo" tyApexClass,
         ComponentLike.meta "Bar" tyApexClass]) =
      Except.ok ⟨[⟨"ApexClass", ["Foo", "Bar"]⟩], "50.0"⟩ ∧
    manifestRoundTrip regFix (buildSet regFix
        [ComponentLike.meta "Foo" tyApexClass,
         ComponentLike.meta "Bar" tyApexClass]) =
      Except.ok ⟨[⟨"ApexClass", ["Foo", "Bar"]⟩], "50.0"⟩ :=
  ⟨by decide,
   c6_manifest_round_trip regFix
     (buildSet regFix
       [ComponentLike.meta "Foo" tyApexClass,
        ComponentLike.meta "Bar" tyApexClass])
     ⟨[⟨"ApexClass", ["Foo", "Bar"]⟩], "50.0"⟩
     (by decide) (by decide) (by decide) (by decide)⟩

/-- C6 counterexample: a folder component `(ReportFolder, foo)` and a
content component `(Report, foo)` both serialize into block `Report` as
member `foo`, so the manifest holds `foo` twice; parsing re-types both
members as the folder type, they collapse into one key, and the
re-serialized manifest lists `foo` once — the round trip does not
reproduce the groupings. -/
theorem c6_counterexample :
    ComponentSet.getObject regFix (buildSet regFix
        [ComponentLike.meta "foo" tyReport,
         ComponentLike.meta "foo" tyReportFolder]) =
      Except.ok ⟨[⟨"Report", ["foo", "foo"]⟩], "50.0"⟩ ∧
    manifestRoundTrip regFix (buildSet regFix
        [ComponentLike.meta "foo" tyReport,
         ComponentLike.meta "foo" tyReportFolder]) =
      Except.ok ⟨[⟨"Report", ["foo"]⟩], "50.0"⟩ ∧
    ([⟨"Report", ["foo"]⟩] : List PackageTypeMembers) ≠
      [⟨"Report", ["foo", "foo"]⟩] := by
  refine ⟨by decide, by decide, by decide⟩

end SDR
